import Mathlib

/-!
Lockstep AST walk of `xls/dslx/frontend/zip_ast.cc` and the `Proc` children of
`xls/dslx/frontend/proc.cc`.

Shallow embedding of `ZipVisitor::Handle`, `ZipInternal`, `ZipAst` and
`Proc::GetChildren`.

* A node is its identity, its dynamic class and its `GetChildren(true)` list.
* `absl::Status` is `Status`; `XLS_RETURN_IF_ERROR(e)` is "return `e` unless it
  is OK".
* The downstream visitors and the mismatch callback are caller code with side
  effects: they are functions on a caller state `σ` returning a status and the
  new state.  Every invocation is appended to a trace together with the status
  it returned.
* Behaviour the C++ leaves undefined (calling an empty `AnyInvocable`, indexing
  a vector out of range) is `none`.
-/

/-- Dynamic class of a node: one value per `X` of `XLS_DSLX_AST_NODE_EACH`. -/
abbrev Kind := Nat

/-- An `AstNode`: `id` stands for the address of the object, `kind` for its
dynamic class, `children` for the result of `GetChildren(/*want_types=*/true)`. -/
inductive AstNode where
  | mk (id : Nat) (kind : Kind) (children : List AstNode)
deriving Repr

mutual
/-- Equality of nodes is decidable. -/
def AstNode.decEq : (a b : AstNode) → Decidable (a = b)
  | .mk i k cs, .mk j l ds =>
    if h1 : i = j then
      if h2 : k = l then
        match AstNode.decEqList cs ds with
        | isTrue h3 => isTrue (by rw [h1, h2, h3])
        | isFalse h3 => isFalse (fun h => h3 (AstNode.mk.inj h).2.2)
      else isFalse (fun h => h2 (AstNode.mk.inj h).2.1)
    else isFalse (fun h => h1 (AstNode.mk.inj h).1)
/-- Equality of lists of nodes is decidable. -/
def AstNode.decEqList : (as bs : List AstNode) → Decidable (as = bs)
  | [], [] => isTrue rfl
  | [], _ :: _ => isFalse (fun h => List.noConfusion h)
  | _ :: _, [] => isFalse (fun h => List.noConfusion h)
  | a :: as, b :: bs =>
    match AstNode.decEq a b with
    | isTrue h1 =>
      match AstNode.decEqList as bs with
      | isTrue h2 => isTrue (by rw [h1, h2])
      | isFalse h2 => isFalse (fun h => h2 (List.cons.inj h).2)
    | isFalse h1 => isFalse (fun h => h1 (List.cons.inj h).1)
end

instance : DecidableEq AstNode := AstNode.decEq

/-- Address of the node. -/
def AstNode.id : AstNode → Nat
  | .mk i _ _ => i

/-- Dynamic class of the node. -/
def AstNode.kind : AstNode → Kind
  | .mk _ k _ => k

/-- The call `GetChildren(/*want_types=*/true)`. -/
def AstNode.GetChildren : AstNode → List AstNode
  | .mk _ _ cs => cs

/-- Error codes of `absl::StatusCode` other than `kOk`. -/
inductive StatusCode where
  | kCancelled
  | kUnknown
  | kInvalidArgument
  | kDeadlineExceeded
  | kNotFound
  | kAlreadyExists
  | kPermissionDenied
  | kResourceExhausted
  | kFailedPrecondition
  | kAborted
  | kOutOfRange
  | kUnimplemented
  | kInternal
  | kUnavailable
  | kDataLoss
  | kUnauthenticated
deriving Repr, DecidableEq

/-- An `absl::Status`. -/
inductive Status where
  | OkStatus
  | error (code : StatusCode) (message : String)
deriving Repr, DecidableEq

/-- The method `absl::Status::ok()`. -/
def Status.ok : Status → Bool
  | .OkStatus => true
  | .error _ _ => false

/-- The class hierarchy of `ast.h`, which `dynamic_cast` consults:
`derivesFrom d b` says that class `d` is a proper descendant of class `b`. -/
structure ClassHierarchy where
  derivesFrom : Kind → Kind → Bool

/-- The hierarchy in which no node class derives from another node class. -/
def flatHierarchy : ClassHierarchy := ⟨fun _ _ => false⟩

/-- `MatchType<T>(node)`: `dynamic_cast<const T*>(node) != nullptr`, which holds
when the dynamic class of `node` is `T` or a descendant of `T`. -/
def MatchType (H : ClassHierarchy) (T : Kind) (node : AstNode) : Bool :=
  node.kind == T || H.derivesFrom node.kind T

/-- One invocation of caller code. -/
inductive Call where
  | lhsAccept (n : AstNode)
  | rhsAccept (n : AstNode)
  | mismatch (lhs rhs : AstNode)
deriving Repr, DecidableEq

/-- An invocation of caller code together with the status it returned. -/
structure Event where
  call : Call
  result : Status
deriving Repr, DecidableEq

/-- Caller state and the invocations so far, oldest first. -/
structure World (σ : Type) where
  user : σ
  trace : List Event

/-- An `AstNodeVisitor` supplied by the caller: `Handle n` is the handler that
`n->Accept(visitor)` selects for the dynamic class of `n`. -/
structure AstNodeVisitor (σ : Type) where
  Handle : AstNode → σ → Status × σ

/-- The type of `accept_mismatch_callback`. -/
abbrev MismatchCallback (σ : Type) := AstNode → AstNode → σ → Status × σ

/-- The class `ZipVisitor`: its three constructor arguments and the pairing
slot `lhs_` / `match_fn_`.  `match_fn_ = some T` is `MatchType<T>`, `none` is
`nullptr`. -/
structure ZipVisitor (σ : Type) where
  lhs_visitor_ : AstNodeVisitor σ
  rhs_visitor_ : AstNodeVisitor σ
  accept_mismatch_callback_ : MismatchCallback σ
  lhs_ : Option AstNode
  match_fn_ : Option Kind

/-- The constructor of `ZipVisitor`: the slot starts empty. -/
def ZipVisitor.new {σ : Type} (lhs_visitor rhs_visitor : AstNodeVisitor σ)
    (accept_mismatch_callback : MismatchCallback σ) : ZipVisitor σ :=
  { lhs_visitor_ := lhs_visitor
    rhs_visitor_ := rhs_visitor
    accept_mismatch_callback_ := accept_mismatch_callback
    lhs_ := none
    match_fn_ := none }

/-- The call `n->Accept(lhs_visitor_)`, recorded in the trace. -/
def ZipVisitor.acceptLhs {σ : Type} (self : ZipVisitor σ) (n : AstNode)
    (w : World σ) : Status × World σ :=
  let r := self.lhs_visitor_.Handle n w.user
  (r.1, { user := r.2, trace := w.trace ++ [⟨Call.lhsAccept n, r.1⟩] })

/-- The call `n->Accept(rhs_visitor_)`, recorded in the trace. -/
def ZipVisitor.acceptRhs {σ : Type} (self : ZipVisitor σ) (n : AstNode)
    (w : World σ) : Status × World σ :=
  let r := self.rhs_visitor_.Handle n w.user
  (r.1, { user := r.2, trace := w.trace ++ [⟨Call.rhsAccept n, r.1⟩] })

/-- The call `accept_mismatch_callback()(lhs, rhs)`, recorded in the trace. -/
def ZipVisitor.invokeMismatch {σ : Type} (self : ZipVisitor σ) (lhs rhs : AstNode)
    (w : World σ) : Status × World σ :=
  let r := self.accept_mismatch_callback_ lhs rhs w.user
  (r.1, { user := r.2, trace := w.trace ++ [⟨Call.mismatch lhs rhs, r.1⟩] })

/-- The template `ZipVisitor::Handle<T>(node)`. -/
def ZipVisitor.Handle {σ : Type} (H : ClassHierarchy) (T : Kind) (self : ZipVisitor σ)
    (node : AstNode) (w : World σ) : Option (Status × ZipVisitor σ × World σ) :=
  match self.lhs_ with
  | none =>
    some (Status.OkStatus, { self with lhs_ := some node, match_fn_ := some T }, w)
  | some lhs =>
    -- `node` is the RHS if we get here.
    match self.match_fn_ with
    | none => none
    | some T' =>
      if MatchType H T' node then
        let r1 := self.acceptLhs lhs w
        if r1.1.ok then
          let r2 := self.acceptRhs node r1.2
          if r2.1.ok then
            some (Status.OkStatus, { self with lhs_ := none, match_fn_ := none }, r2.2)
          else some (r2.1, self, r2.2)
        else some (r1.1, self, r1.2)
      else
        let r := self.invokeMismatch lhs node w
        if r.1.ok then
          some (Status.OkStatus, { self with lhs_ := none, match_fn_ := none }, r.2)
        else some (r.1, self, r.2)

/-- The call `n->Accept(visitor)` on the `ZipVisitor`: `Handle##T(n)` for the
dynamic class `T` of `n`, which is `Handle<T>(n)`. -/
def AstNode.Accept {σ : Type} (H : ClassHierarchy) (n : AstNode) (visitor : ZipVisitor σ)
    (w : World σ) : Option (Status × ZipVisitor σ × World σ) :=
  visitor.Handle H n.kind n w

mutual
/-- The function `ZipInternal(visitor, lhs, rhs)`. -/
def ZipInternal {σ : Type} (H : ClassHierarchy) (visitor : ZipVisitor σ) :
    AstNode → AstNode → World σ → Option (Status × ZipVisitor σ × World σ)
  | .mk lid lkind lhs_children, rhs, w =>
    match (AstNode.mk lid lkind lhs_children).Accept H visitor w with
    | none => none
    | some (Status.error c m, v1, w1) => some (Status.error c m, v1, w1)
    | some (Status.OkStatus, v1, w1) =>
      match rhs.Accept H v1 w1 with
      | none => none
      | some (Status.error c m, v2, w2) => some (Status.error c m, v2, w2)
      | some (Status.OkStatus, v2, w2) =>
        let rhs_children := rhs.GetChildren
        if lhs_children.length ≠ rhs_children.length then
          let r := v2.invokeMismatch (AstNode.mk lid lkind lhs_children) rhs w2
          some (r.1, v2, r.2)
        else ZipInternalLoop H v2 lhs_children rhs_children w2
/-- The loop `for (i ...) XLS_RETURN_IF_ERROR(ZipInternal(visitor,
lhs_children[i], rhs_children[i]))` of `ZipInternal`, from the index where the
two arguments are the remaining elements. -/
def ZipInternalLoop {σ : Type} (H : ClassHierarchy) (visitor : ZipVisitor σ) :
    List AstNode → List AstNode → World σ → Option (Status × ZipVisitor σ × World σ)
  | [], _, w => some (Status.OkStatus, visitor, w)
  | _ :: _, [], _ => none
  | l :: ls, r :: rs, w =>
    match ZipInternal H visitor l r w with
    | none => none
    | some (Status.error c m, v1, w1) => some (Status.error c m, v1, w1)
    | some (Status.OkStatus, v1, w1) => ZipInternalLoop H v1 ls rs w1
end

/-- The function `ZipAst`: the status returned and the caller state and trace
after the call. -/
def ZipAst {σ : Type} (H : ClassHierarchy) (lhs rhs : AstNode)
    (lhs_visitor rhs_visitor : AstNodeVisitor σ)
    (accept_mismatch_callback : MismatchCallback σ) (s : σ) :
    Option (Status × World σ) :=
  match ZipInternal H (ZipVisitor.new lhs_visitor rhs_visitor accept_mismatch_callback)
      lhs rhs ⟨s, []⟩ with
  | none => none
  | some (st, _, w) => some (st, w)

/-- What feeding `lhs` and then `rhs` to a `ZipVisitor` with an empty slot does
to the caller: the two downstream dispatches when the classes match, the
mismatch callback otherwise. -/
def pairStep {σ : Type} (H : ClassHierarchy) (v : ZipVisitor σ) (lhs rhs : AstNode)
    (w : World σ) : Status × World σ :=
  if MatchType H lhs.kind rhs then
    let r1 := v.acceptLhs lhs w
    if r1.1.ok then v.acceptRhs rhs r1.2 else r1
  else v.invokeMismatch lhs rhs w

mutual
/-- Reference semantics of `ZipInternal` started with an empty slot: the status
and the caller-visible effects, without the slot. -/
def walk {σ : Type} (H : ClassHierarchy) (v : ZipVisitor σ) :
    AstNode → AstNode → World σ → Status × World σ
  | .mk lid lkind lcs, rhs, w =>
    let r := pairStep H v (AstNode.mk lid lkind lcs) rhs w
    if r.1.ok then
      if lcs.length ≠ rhs.GetChildren.length then
        v.invokeMismatch (AstNode.mk lid lkind lcs) rhs r.2
      else walkLoop H v lcs rhs.GetChildren r.2
    else r
/-- Reference semantics of the loop over the children. -/
def walkLoop {σ : Type} (H : ClassHierarchy) (v : ZipVisitor σ) :
    List AstNode → List AstNode → World σ → Status × World σ
  | [], _, w => (Status.OkStatus, w)
  | _ :: _, [], w => (Status.OkStatus, w)
  | l :: ls, r :: rs, w =>
    let r1 := walk H v l r w
    if r1.1.ok then walkLoop H v ls rs r1.2 else r1
end

/-- The slot of the visitor is empty. -/
def ZipVisitor.slotEmpty {σ : Type} (v : ZipVisitor σ) : Prop :=
  v.lhs_ = none ∧ v.match_fn_ = none

/-- Nodes dispatched to the left visitor, in order. -/
def lhsDispatched (tr : List Event) : List AstNode :=
  tr.filterMap fun e => match e.call with
    | Call.lhsAccept n => some n
    | _ => none

/-- Nodes dispatched to the right visitor, in order. -/
def rhsDispatched (tr : List Event) : List AstNode :=
  tr.filterMap fun e => match e.call with
    | Call.rhsAccept n => some n
    | _ => none

/-- Argument pairs of the invocations of the mismatch callback, in order. -/
def mismatchCalls (tr : List Event) : List (AstNode × AstNode) :=
  tr.filterMap fun e => match e.call with
    | Call.mismatch l r => some (l, r)
    | _ => none

mutual
/-- Pre-order enumeration of a tree: a node, then its children left to right. -/
def preorder : AstNode → List AstNode
  | .mk i k cs => AstNode.mk i k cs :: preorderList cs
/-- Pre-order enumeration of a forest. -/
def preorderList : List AstNode → List AstNode
  | [] => []
  | c :: cs => preorder c ++ preorderList cs
end

mutual
/-- Shape isomorphism as the walk sees it: at every corresponding position the
right node passes the class test of the left node and the child counts agree. -/
def sameShape (H : ClassHierarchy) : AstNode → AstNode → Bool
  | .mk _ k cs, r =>
    MatchType H k r && (cs.length == r.GetChildren.length) && sameShapeList H cs r.GetChildren
/-- Shape isomorphism of two child lists, position by position. -/
def sameShapeList (H : ClassHierarchy) : List AstNode → List AstNode → Bool
  | [], [] => true
  | [], _ :: _ => false
  | _ :: _, [] => false
  | l :: ls, r :: rs => sameShape H l r && sameShapeList H ls rs
end

mutual
/-- Trace of a walk over two trees of the same shape with succeeding handlers. -/
def pairEvents : AstNode → AstNode → List Event
  | .mk i k cs, r =>
    ⟨Call.lhsAccept (AstNode.mk i k cs), Status.OkStatus⟩
      :: ⟨Call.rhsAccept r, Status.OkStatus⟩ :: pairEventsList cs r.GetChildren
/-- Trace of a walk over two child lists of the same shape. -/
def pairEventsList : List AstNode → List AstNode → List Event
  | [], _ => []
  | _ :: _, [] => []
  | l :: ls, r :: rs => pairEvents l r ++ pairEventsList ls rs
end

/-- The downstream handlers of `v` always succeed. -/
def ZipVisitor.handlersSucceed {σ : Type} (v : ZipVisitor σ) : Prop :=
  (∀ n s, (v.lhs_visitor_.Handle n s).1 = Status.OkStatus)
    ∧ (∀ n s, (v.rhs_visitor_.Handle n s).1 = Status.OkStatus)

/-- Shape of the trace segment of a fail-fast run that returned `st`: when `st`
is OK every invocation returned OK; otherwise every invocation but the last
returned OK and the last one returned `st`. -/
def failFast (st : Status) (evs : List Event) : Prop :=
  (st = Status.OkStatus ∧ ∀ e ∈ evs, e.result = Status.OkStatus)
    ∨ (st ≠ Status.OkStatus ∧ ∃ pre e, evs = pre ++ [e]
        ∧ (∀ x ∈ pre, x.result = Status.OkStatus) ∧ e.result = st)

/-- The call is a dispatch to a downstream visitor. -/
def Call.isAccept : Call → Bool
  | .lhsAccept _ => true
  | .rhsAccept _ => true
  | .mismatch _ _ => false

/-- The call is an invocation of the mismatch callback. -/
def Call.isMismatch : Call → Bool
  | .mismatch _ _ => true
  | _ => false

/-- The mismatch callback of `v` accepts every pair. -/
def ZipVisitor.callbackSucceeds {σ : Type} (v : ZipVisitor σ) : Prop :=
  ∀ l r s, (v.accept_mismatch_callback_ l r s).1 = Status.OkStatus

mutual
/-- Number of nodes of a tree. -/
def AstNode.size : AstNode → Nat
  | .mk _ _ cs => 1 + AstNode.sizeList cs
/-- Number of nodes of a forest. -/
def AstNode.sizeList : List AstNode → Nat
  | [] => 0
  | c :: cs => c.size + AstNode.sizeList cs
end

/-- A visitor all of whose handlers succeed and leave the caller state alone. -/
def okVisitor : AstNodeVisitor Unit := ⟨fun _ s => (Status.OkStatus, s)⟩

/-- A mismatch callback that accepts every mismatch. -/
def acceptAll : MismatchCallback Unit := fun _ _ s => (Status.OkStatus, s)

/-- A mismatch callback that rejects every mismatch. -/
def rejectAll : MismatchCallback Unit :=
  fun _ _ s => (Status.error StatusCode.kInvalidArgument "mismatch", s)

/-- A leaf of class 2. -/
def leafA : AstNode := AstNode.mk 1 2 []

/-- Another leaf of class 2. -/
def leafB : AstNode := AstNode.mk 2 2 []

/-- A node of class 1 with the two leaves as children. -/
def parentAB : AstNode := AstNode.mk 0 1 [leafA, leafB]

/-- The same node with the two children exchanged. -/
def parentBA : AstNode := AstNode.mk 0 1 [leafB, leafA]

/-- The struct held in `Proc::body_`, with the fields `proc.cc` reads: the
`ProcMember*` list and the three `Function*`. -/
structure ProcBody where
  members : List AstNode
  config : AstNode
  next : AstNode
  init : AstNode

/-- The class `Proc`: the fields set by its constructor that `GetChildren`
reads, and `is_public_`. -/
structure Proc where
  name_def_ : AstNode
  parametric_bindings_ : List AstNode
  body_ : ProcBody
  is_public_ : Bool

/-- The accessor `Proc::name_def()`. -/
def Proc.name_def (self : Proc) : AstNode := self.name_def_

/-- The method `std::vector::push_back`. -/
def push_back (results : List AstNode) (x : AstNode) : List AstNode := results ++ [x]

/-- The method `Proc::GetChildren(want_types)`. -/
def Proc.GetChildren (self : Proc) (want_types : Bool) : List AstNode :=
  let results := [self.name_def]
  let results := self.parametric_bindings_.foldl push_back results
  let results := self.body_.members.foldl push_back results
  let results := push_back results self.body_.config
  let results := push_back results self.body_.next
  let results := push_back results self.body_.init
  results

/-- A `Proc` without parametric bindings and without members. -/
def procBare : Proc :=
  { name_def_ := AstNode.mk 10 4 []
    parametric_bindings_ := []
    body_ := ⟨[], AstNode.mk 11 5 [], AstNode.mk 12 5 [], AstNode.mk 13 5 []⟩
    is_public_ := false }

/-- A `Proc` without parametric bindings and with one member. -/
def procOneMember : Proc :=
  { name_def_ := AstNode.mk 20 4 []
    parametric_bindings_ := []
    body_ := ⟨[AstNode.mk 24 6 []], AstNode.mk 21 5 [], AstNode.mk 22 5 [],
      AstNode.mk 23 5 []⟩
    is_public_ := false }

/-- A visitor all of whose handlers fail and leave the caller state alone. -/
def failVisitor : AstNodeVisitor Unit :=
  ⟨fun _ s => (Status.error StatusCode.kInternal "visit", s)⟩

/-- A `ZipVisitor` whose slot holds the pending left node `lhs` and the test
for the class of `lhs`, as the first call of `Handle` leaves it. -/
def ZipVisitor.pending {σ : Type} (v : ZipVisitor σ) (lhs : AstNode) : ZipVisitor σ :=
  { v with lhs_ := some lhs, match_fn_ := some lhs.kind }

/-- What `ast.h` fixes and `proc.cc` uses: the classes `Function` and
`ProcMember`, and the virtual `GetNodeTypeName()`, which each class answers with
its own name. -/
structure NodeCatalog where
  Function : Kind
  ProcMember : Kind
  GetNodeTypeName : Kind → String

/-- The call `n->GetNodeTypeName()`. -/
def AstNode.GetNodeTypeName (C : NodeCatalog) (n : AstNode) : String :=
  C.GetNodeTypeName n.kind

/-- The type `ProcStmt`, a `std::variant<Function*, ProcMember*>`. -/
inductive ProcStmt where
  | Function (f : AstNode)
  | ProcMember (m : AstNode)
deriving Repr, DecidableEq

/-- An `absl::StatusOr<T>`: a value, or a status that is not OK. -/
inductive StatusOr (α : Type) where
  | value (a : α)
  | status (code : StatusCode) (message : String)
deriving Repr, DecidableEq

/-- The function `absl::InvalidArgumentError`. -/
def InvalidArgumentError {α : Type} (message : String) : StatusOr α :=
  StatusOr.status StatusCode.kInvalidArgument message

/-- The function `ToProcStmt(n)`. -/
def ToProcStmt (H : ClassHierarchy) (C : NodeCatalog) (n : AstNode) : StatusOr ProcStmt :=
  if MatchType H C.Function n then StatusOr.value (ProcStmt.Function n)
  else if MatchType H C.ProcMember n then StatusOr.value (ProcStmt.ProcMember n)
  else InvalidArgumentError
    ("Node is not a valid ProcStmt; type: " ++ n.GetNodeTypeName C)

/-- A catalog in which `Function` is class 5 and `ProcMember` is class 6. -/
def smallCatalog : NodeCatalog :=
  { Function := 5
    ProcMember := 6
    GetNodeTypeName := fun k =>
      if k = 5 then "Function" else if k = 6 then "ProcMember" else "NameDef" }

/-- The node reached from `n` by a child-index path: `[]` is `n` itself,
`i :: p` continues with `p` from the child of index `i`. -/
def nodeAt : List Nat → AstNode → Option AstNode
  | [], n => some n
  | i :: p, n =>
    match n.GetChildren[i]? with
    | none => none
    | some c => nodeAt p c

/-- The nodes `l` and `r` sit at the same child-index path of `L` and of `R`. -/
def samePosition (L R l r : AstNode) : Prop :=
  ∃ path, nodeAt path L = some l ∧ nodeAt path R = some r

/-- The nodes `l` and `r` sit at the same index and path below it in the child
lists `ls` and `rs`. -/
def samePositionList (ls rs : List AstNode) (l r : AstNode) : Prop :=
  ∃ (i : Nat) (a b : AstNode), ls[i]? = some a ∧ rs[i]? = some b ∧ samePosition a b l r

/-- Trace segments made of pairing steps on pairs related by `P`: a left
dispatch followed by the right dispatch of its counterpart, which passes the
class test of the left node; a left dispatch alone; or an invocation of the
mismatch callback. -/
inductive Aligned (H : ClassHierarchy) (P : AstNode → AstNode → Prop) : List Event → Prop
  | nil : Aligned H P []
  | pair (l r : AstNode) (st : Status) (rest : List Event) :
      P l r → MatchType H l.kind r = true → Aligned H P rest →
      Aligned H P (⟨Call.lhsAccept l, Status.OkStatus⟩ :: ⟨Call.rhsAccept r, st⟩ :: rest)
  | lhsOnly (l r : AstNode) (st : Status) (rest : List Event) :
      P l r → MatchType H l.kind r = true → Aligned H P rest →
      Aligned H P (⟨Call.lhsAccept l, st⟩ :: rest)
  | mismatch (l r : AstNode) (st : Status) (rest : List Event) :
      P l r → Aligned H P rest → Aligned H P (⟨Call.mismatch l r, st⟩ :: rest)

/-- The invocations of `ZipInternal` made during the call
`ZipInternal(v, l, r)` started in world `w`, each with the visitor state and
world it starts in: the call itself; and, when both nodes were fed with OK and
the child counts agree, every invocation made during the call on the children
of index `i`, which starts where the iterations before `i` ended, all with
OK. -/
inductive ZipInternalReaches {σ : Type} (H : ClassHierarchy) :
    ZipVisitor σ → AstNode → AstNode → World σ →
    ZipVisitor σ → AstNode → AstNode → World σ → Prop
  | self (v : ZipVisitor σ) (l r : AstNode) (w : World σ) :
      ZipInternalReaches H v l r w v l r w
  | child (v : ZipVisitor σ) (l r : AstNode) (w : World σ)
      (v1 : ZipVisitor σ) (w1 : World σ) (v2 : ZipVisitor σ) (w2 : World σ)
      (v3 : ZipVisitor σ) (w3 : World σ) (i : Nat) (a b : AstNode)
      (v4 : ZipVisitor σ) (l4 r4 : AstNode) (w4 : World σ) :
      l.Accept H v w = some (Status.OkStatus, v1, w1) →
      r.Accept H v1 w1 = some (Status.OkStatus, v2, w2) →
      l.GetChildren.length = r.GetChildren.length →
      ZipInternalLoop H v2 (l.GetChildren.take i) (r.GetChildren.take i) w2
        = some (Status.OkStatus, v3, w3) →
      l.GetChildren[i]? = some a → r.GetChildren[i]? = some b →
      ZipInternalReaches H v3 a b w3 v4 l4 r4 w4 →
      ZipInternalReaches H v l r w v4 l4 r4 w4

mutual
/-- Number of invocations of `ZipInternal` made by the call
`ZipInternal(visitor, lhs, rhs)`, itself included: the number of node pairs fed
to the pairing visitor. -/
def ZipInternalCalls {σ : Type} (H : ClassHierarchy) (visitor : ZipVisitor σ) :
    AstNode → AstNode → World σ → Nat
  | .mk lid lkind lhs_children, rhs, w =>
    match (AstNode.mk lid lkind lhs_children).Accept H visitor w with
    | some (Status.OkStatus, v1, w1) =>
      match rhs.Accept H v1 w1 with
      | some (Status.OkStatus, v2, w2) =>
        if lhs_children.length ≠ rhs.GetChildren.length then 1
        else 1 + ZipInternalLoopCalls H v2 lhs_children rhs.GetChildren w2
      | _ => 1
    | _ => 1
/-- Number of invocations of `ZipInternal` made by the loop over the
children. -/
def ZipInternalLoopCalls {σ : Type} (H : ClassHierarchy) (visitor : ZipVisitor σ) :
    List AstNode → List AstNode → World σ → Nat
  | [], _, _ => 0
  | _ :: _, [], _ => 0
  | l :: ls, r :: rs, w =>
    ZipInternalCalls H visitor l r w +
      match ZipInternal H visitor l r w with
      | some (Status.OkStatus, v1, w1) => ZipInternalLoopCalls H v1 ls rs w1
      | _ => 0
end

theorem Status.ok_iff (st : Status) : st.ok = true ↔ st = Status.OkStatus := by
  cases st <;> simp [Status.ok]

theorem Status.not_ok_iff (st : Status) : st.ok = false ↔ st ≠ Status.OkStatus := by
  cases st <;> simp [Status.ok]

theorem ZipVisitor.clear_eq {σ : Type} (v : ZipVisitor σ) (hv : v.slotEmpty) :
    ({ v with lhs_ := none, match_fn_ := none } : ZipVisitor σ) = v := by
  obtain ⟨a, b, c, d, e⟩ := v
  obtain ⟨h1, h2⟩ := hv
  simp only at h1 h2
  subst h1; subst h2; rfl

/-- Feeding the left node to an empty slot stores it. -/
theorem accept_first {σ : Type} (H : ClassHierarchy) (v : ZipVisitor σ) (hv : v.slotEmpty)
    (l : AstNode) (w : World σ) :
    l.Accept H v w
      = some (Status.OkStatus, { v with lhs_ := some l, match_fn_ := some l.kind }, w) := by
  simp [AstNode.Accept, ZipVisitor.Handle, hv.1]

/-- Feeding the right node after the left one performs the pairing step. -/
theorem accept_second {σ : Type} (H : ClassHierarchy) (v : ZipVisitor σ) (hv : v.slotEmpty)
    (l r : AstNode) (w : World σ) :
    r.Accept H { v with lhs_ := some l, match_fn_ := some l.kind } w
      = some (if (pairStep H v l r w).1.ok then (Status.OkStatus, v, (pairStep H v l r w).2)
          else ((pairStep H v l r w).1,
            { v with lhs_ := some l, match_fn_ := some l.kind }, (pairStep H v l r w).2)) := by
  have hc := v.clear_eq hv
  simp only [AstNode.Accept, ZipVisitor.Handle, pairStep, ZipVisitor.acceptLhs,
    ZipVisitor.acceptRhs, ZipVisitor.invokeMismatch] at hc ⊢
  split_ifs <;> simp_all

mutual
/-- Started with an empty slot, `ZipInternal` is defined, returns the status and
effects of `walk`, and on success leaves the visitor as it found it. -/
theorem ZipInternal_eq_walk {σ : Type} (H : ClassHierarchy) (v : ZipVisitor σ)
    (hv : v.slotEmpty) : (l r : AstNode) → (w : World σ) →
    ∃ v1, ZipInternal H v l r w = some ((walk H v l r w).1, v1, (walk H v l r w).2)
      ∧ ((walk H v l r w).1 = Status.OkStatus → v1 = v)
  | .mk lid lkind lcs, r, w => by
    rw [ZipInternal, walk, accept_first H v hv]
    simp only [accept_second H v hv]
    rcases hp : (pairStep H v (AstNode.mk lid lkind lcs) r w).1 with _ | ⟨c, m⟩
    · simp only [Status.ok, if_true]
      by_cases hlen : lcs.length = r.GetChildren.length
      · simp only [hlen, ne_eq, not_true_eq_false, if_false]
        exact ZipInternalLoop_eq_walkLoop H v hv lcs r.GetChildren _ hlen
      · simp only [ne_eq, hlen, not_false_eq_true, if_true]
        exact ⟨v, rfl, fun _ => rfl⟩
    · simp only [Status.ok, Bool.false_eq_true, if_false]
      refine ⟨{ v with lhs_ := some (AstNode.mk lid lkind lcs), match_fn_ := some lkind },
        ?_, ?_⟩
      · rw [hp]; rfl
      · intro h; rw [hp] at h; cases h
/-- The loop over two child lists of equal length refines `walkLoop`. -/
theorem ZipInternalLoop_eq_walkLoop {σ : Type} (H : ClassHierarchy) (v : ZipVisitor σ)
    (hv : v.slotEmpty) : (ls rs : List AstNode) → (w : World σ) → ls.length = rs.length →
    ∃ v1, ZipInternalLoop H v ls rs w
        = some ((walkLoop H v ls rs w).1, v1, (walkLoop H v ls rs w).2)
      ∧ ((walkLoop H v ls rs w).1 = Status.OkStatus → v1 = v)
  | [], _, w, _ => by
    exact ⟨v, by simp [ZipInternalLoop, walkLoop], fun _ => rfl⟩
  | _ :: _, [], _, h => by simp at h
  | l :: ls, r :: rs, w, h => by
    obtain ⟨v1, h1, h2⟩ := ZipInternal_eq_walk H v hv l r w
    rw [ZipInternalLoop, walkLoop, h1]
    rcases hp : (walk H v l r w).1 with _ | ⟨c, m⟩
    · simp only [Status.ok, if_true]
      rw [h2 hp]
      exact ZipInternalLoop_eq_walkLoop H v hv ls rs _ (by simpa using h)
    · simp only [Status.ok, Bool.false_eq_true, if_false]
      refine ⟨v1, ?_, ?_⟩
      · rw [hp]
      · intro h; rw [hp] at h; cases h
end

/-- The function `ZipAst` is defined on every input and computes `walk` from the
empty trace. -/
theorem ZipAst_eq_walk {σ : Type} (H : ClassHierarchy) (L R : AstNode)
    (lv rv : AstNodeVisitor σ) (cb : MismatchCallback σ) (s : σ) :
    ZipAst H L R lv rv cb s = some (walk H (ZipVisitor.new lv rv cb) L R ⟨s, []⟩) := by
  obtain ⟨v1, h1, _⟩ := ZipInternal_eq_walk H (ZipVisitor.new lv rv cb) ⟨rfl, rfl⟩ L R ⟨s, []⟩
  simp [ZipAst, h1]

theorem lhsDispatched_append (a b : List Event) :
    lhsDispatched (a ++ b) = lhsDispatched a ++ lhsDispatched b := by
  simp [lhsDispatched, List.filterMap_append]

theorem rhsDispatched_append (a b : List Event) :
    rhsDispatched (a ++ b) = rhsDispatched a ++ rhsDispatched b := by
  simp [rhsDispatched, List.filterMap_append]

theorem mismatchCalls_append (a b : List Event) :
    mismatchCalls (a ++ b) = mismatchCalls a ++ mismatchCalls b := by
  simp [mismatchCalls, List.filterMap_append]

theorem sameShapeList_length (H : ClassHierarchy) :
    (ls rs : List AstNode) → sameShapeList H ls rs = true → ls.length = rs.length
  | [], [], _ => rfl
  | [], _ :: _, h => by simp [sameShapeList] at h
  | _ :: _, [], h => by simp [sameShapeList] at h
  | _ :: ls, _ :: rs, h => by
    simp only [sameShapeList, Bool.and_eq_true] at h
    simp [sameShapeList_length H ls rs h.2]

mutual
theorem pairEvents_mismatch : (l r : AstNode) → mismatchCalls (pairEvents l r) = []
  | .mk i k cs, r => by
    have ih := pairEventsList_mismatch cs r.GetChildren
    simpa [pairEvents, mismatchCalls] using ih
theorem pairEventsList_mismatch :
    (ls rs : List AstNode) → mismatchCalls (pairEventsList ls rs) = []
  | [], _ => by simp [pairEventsList, mismatchCalls]
  | _ :: _, [] => by simp [pairEventsList, mismatchCalls]
  | l :: ls, r :: rs => by
    rw [pairEventsList, mismatchCalls_append, pairEvents_mismatch l r,
      pairEventsList_mismatch ls rs]; rfl
end

mutual
theorem pairEvents_lhs (H : ClassHierarchy) : (l r : AstNode) → sameShape H l r = true →
    lhsDispatched (pairEvents l r) = preorder l
  | .mk i k cs, r, h => by
    simp only [sameShape, Bool.and_eq_true] at h
    have ih := pairEventsList_lhs H cs r.GetChildren h.2
    simpa [pairEvents, lhsDispatched, preorder] using ih
theorem pairEventsList_lhs (H : ClassHierarchy) :
    (ls rs : List AstNode) → sameShapeList H ls rs = true →
    lhsDispatched (pairEventsList ls rs) = preorderList ls
  | [], _, _ => by simp [pairEventsList, lhsDispatched, preorderList]
  | _ :: _, [], h => by simp [sameShapeList] at h
  | l :: ls, r :: rs, h => by
    simp only [sameShapeList, Bool.and_eq_true] at h
    rw [pairEventsList, lhsDispatched_append, pairEvents_lhs H l r h.1,
      pairEventsList_lhs H ls rs h.2, preorderList]
end

mutual
theorem pairEvents_rhs (H : ClassHierarchy) : (l r : AstNode) → sameShape H l r = true →
    rhsDispatched (pairEvents l r) = preorder r
  | .mk i k cs, .mk j m ds, h => by
    simp only [sameShape, Bool.and_eq_true, AstNode.GetChildren] at h
    have ih := pairEventsList_rhs H cs ds h.2
    simpa [pairEvents, rhsDispatched, preorder, AstNode.GetChildren] using ih
theorem pairEventsList_rhs (H : ClassHierarchy) :
    (ls rs : List AstNode) → sameShapeList H ls rs = true →
    rhsDispatched (pairEventsList ls rs) = preorderList rs
  | [], [], _ => by simp [pairEventsList, rhsDispatched, preorderList]
  | [], _ :: _, h => by simp [sameShapeList] at h
  | _ :: _, [], h => by simp [sameShapeList] at h
  | l :: ls, r :: rs, h => by
    simp only [sameShapeList, Bool.and_eq_true] at h
    rw [pairEventsList, rhsDispatched_append, pairEvents_rhs H l r h.1,
      pairEventsList_rhs H ls rs h.2, preorderList]
end

mutual
/-- Every tree has its own shape. -/
theorem sameShape_self (H : ClassHierarchy) : (t : AstNode) → sameShape H t t = true
  | .mk i k cs => by
    simp [sameShape, MatchType, AstNode.kind, AstNode.GetChildren, sameShapeList_self H cs]
theorem sameShapeList_self (H : ClassHierarchy) :
    (ts : List AstNode) → sameShapeList H ts ts = true
  | [] => rfl
  | t :: ts => by simp [sameShapeList, sameShape_self H t, sameShapeList_self H ts]
end

/-- A matching pair with succeeding handlers is dispatched left then right. -/
theorem pairStep_match {σ : Type} (H : ClassHierarchy) (v : ZipVisitor σ)
    (hv : v.handlersSucceed) (l r : AstNode) (w : World σ)
    (hm : MatchType H l.kind r = true) :
    (pairStep H v l r w).1 = Status.OkStatus
      ∧ (pairStep H v l r w).2.trace
        = w.trace ++ [⟨Call.lhsAccept l, Status.OkStatus⟩, ⟨Call.rhsAccept r, Status.OkStatus⟩] := by
  simp [pairStep, hm, ZipVisitor.acceptLhs, ZipVisitor.acceptRhs, hv.1, hv.2, Status.ok]

mutual
/-- On two trees of the same shape, with succeeding handlers, the walk succeeds
and its trace is the pairwise pre-order dispatch sequence. -/
theorem walk_sameShape {σ : Type} (H : ClassHierarchy) (v : ZipVisitor σ)
    (hv : v.handlersSucceed) : (l r : AstNode) → (w : World σ) → sameShape H l r = true →
    (walk H v l r w).1 = Status.OkStatus
      ∧ (walk H v l r w).2.trace = w.trace ++ pairEvents l r
  | .mk i k cs, r, w, h => by
    simp only [sameShape, Bool.and_eq_true, beq_iff_eq] at h
    obtain ⟨⟨hm, hlen⟩, hcs⟩ := h
    obtain ⟨p1, p2⟩ := pairStep_match H v hv (AstNode.mk i k cs) r w hm
    obtain ⟨q1, q2⟩ := walkLoop_sameShape H v hv cs r.GetChildren
      (pairStep H v (AstNode.mk i k cs) r w).2 hcs
    rw [walk]
    simp only [p1, Status.ok, if_true, hlen, ne_eq, not_true_eq_false, if_false]
    refine ⟨q1, ?_⟩
    rw [q2, p2, pairEvents]
    simp
theorem walkLoop_sameShape {σ : Type} (H : ClassHierarchy) (v : ZipVisitor σ)
    (hv : v.handlersSucceed) : (ls rs : List AstNode) → (w : World σ) →
    sameShapeList H ls rs = true →
    (walkLoop H v ls rs w).1 = Status.OkStatus
      ∧ (walkLoop H v ls rs w).2.trace = w.trace ++ pairEventsList ls rs
  | [], _, w, _ => by simp [walkLoop, pairEventsList]
  | _ :: _, [], _, h => by simp [sameShapeList] at h
  | l :: ls, r :: rs, w, h => by
    simp only [sameShapeList, Bool.and_eq_true] at h
    obtain ⟨p1, p2⟩ := walk_sameShape H v hv l r w h.1
    obtain ⟨q1, q2⟩ := walkLoop_sameShape H v hv ls rs (walk H v l r w).2 h.2
    rw [walkLoop]
    simp only [p1, Status.ok, if_true]
    refine ⟨q1, ?_⟩
    rw [q2, p2, pairEventsList]
    simp
end

/-- Claim C1 (self-zip identity).  For every tree `T`, downstream visitors whose
handlers always succeed and a mismatch callback that always fails,
`ZipAst(T, T, lv, rv, cb)` returns OK, never invokes the mismatch callback, and
dispatches to each of the two visitors exactly the pre-order enumeration of
`T`. -/
theorem ZipAst_self_zip {σ : Type} (H : ClassHierarchy) (T : AstNode)
    (lv rv : AstNodeVisitor σ) (cb : MismatchCallback σ) (s : σ)
    (hl : ∀ n s, (lv.Handle n s).1 = Status.OkStatus)
    (hr : ∀ n s, (rv.Handle n s).1 = Status.OkStatus)
    (_hcb : ∀ l r s, (cb l r s).1.ok = false) :
    ∃ w, ZipAst H T T lv rv cb s = some (Status.OkStatus, w)
      ∧ mismatchCalls w.trace = []
      ∧ lhsDispatched w.trace = preorder T
      ∧ rhsDispatched w.trace = preorder T := by
  obtain ⟨h1, h2⟩ := walk_sameShape H (ZipVisitor.new lv rv cb) ⟨hl, hr⟩ T T ⟨s, []⟩
    (sameShape_self H T)
  refine ⟨(walk H (ZipVisitor.new lv rv cb) T T ⟨s, []⟩).2, ?_, ?_, ?_, ?_⟩
  · rw [ZipAst_eq_walk, ← h1]
  · rw [h2]; simpa using pairEvents_mismatch T T
  · rw [h2]; simpa using pairEvents_lhs H T T (sameShape_self H T)
  · rw [h2]; simpa using pairEvents_rhs H T T (sameShape_self H T)

theorem failFast_single (c : Call) (st : Status) : failFast st [⟨c, st⟩] := by
  by_cases h : st = Status.OkStatus
  · exact Or.inl ⟨h, by simpa using h⟩
  · exact Or.inr ⟨h, [], ⟨c, st⟩, by simp, by simp, rfl⟩

theorem failFast_nil : failFast Status.OkStatus [] :=
  Or.inl ⟨rfl, by simp⟩

theorem failFast_append (st : Status) (evs1 evs2 : List Event)
    (h1 : failFast Status.OkStatus evs1) (h2 : failFast st evs2) :
    failFast st (evs1 ++ evs2) := by
  have hok : ∀ e ∈ evs1, e.result = Status.OkStatus := by
    rcases h1 with ⟨_, h⟩ | ⟨h, _⟩
    · exact h
    · exact absurd rfl h
  rcases h2 with ⟨hst, h⟩ | ⟨hst, pre, e, he, hpre, hres⟩
  · refine Or.inl ⟨hst, ?_⟩
    intro e he
    rcases List.mem_append.1 he with h' | h'
    · exact hok e h'
    · exact h e h'
  · refine Or.inr ⟨hst, evs1 ++ pre, e, by simp [he], ?_, hres⟩
    intro x hx
    rcases List.mem_append.1 hx with h' | h'
    · exact hok x h'
    · exact hpre x h'

/-- In a fail-fast trace an invocation that did not return OK is the last one
and its result is the status of the run. -/
theorem failFast_error_last (st : Status) (evs pre post : List Event) (ev : Event)
    (h : failFast st evs) (hsplit : evs = pre ++ ev :: post)
    (herr : ev.result ≠ Status.OkStatus) : post = [] ∧ st = ev.result := by
  rcases h with ⟨_, hall⟩ | ⟨_, pre1, e, he, hpre, hres⟩
  · exact absurd (hall ev (by simp [hsplit])) herr
  · rcases List.eq_nil_or_concat post with hp | ⟨post1, x, hp⟩
    · subst hp
      rw [hsplit] at he
      have h2 := List.append_inj_right' he rfl
      simp only [List.cons.injEq, and_true] at h2
      exact ⟨rfl, by rw [← hres, h2]⟩
    · subst hp
      rw [hsplit] at he
      have he2 : (pre ++ ev :: post1) ++ [x] = pre1 ++ [e] := by simpa using he
      have h2 := List.append_inj_left' he2 rfl
      exact absurd (hpre ev (by simp [← h2])) herr

/-- A fail-fast run that returned an error ends with the invocation that
returned it. -/
theorem failFast_error_source (st : Status) (evs : List Event) (h : failFast st evs)
    (hst : st ≠ Status.OkStatus) : ∃ pre e, evs = pre ++ [e] ∧ e.result = st := by
  rcases h with ⟨h1, _⟩ | ⟨_, pre, e, he, _, hres⟩
  · exact absurd h1 hst
  · exact ⟨pre, e, he, hres⟩

theorem pairStep_failFast {σ : Type} (H : ClassHierarchy) (v : ZipVisitor σ)
    (l r : AstNode) (w : World σ) :
    ∃ evs, (pairStep H v l r w).2.trace = w.trace ++ evs
      ∧ failFast (pairStep H v l r w).1 evs := by
  unfold pairStep
  by_cases hm : MatchType H l.kind r = true
  · simp only [hm, if_true]
    by_cases h1 : (v.acceptLhs l w).1.ok = true
    · simp only [h1, if_true]
      refine ⟨[⟨Call.lhsAccept l, (v.lhs_visitor_.Handle l w.user).1⟩,
        ⟨Call.rhsAccept r, (v.acceptRhs r (v.acceptLhs l w).2).1⟩], ?_, ?_⟩
      · simp [ZipVisitor.acceptRhs, ZipVisitor.acceptLhs]
      · have h1' : (v.lhs_visitor_.Handle l w.user).1 = Status.OkStatus :=
          (Status.ok_iff _).1 h1
        rw [h1']
        exact failFast_append _ [_] [_] (failFast_single _ _) (failFast_single _ _)
    · simp only [h1, if_false]
      exact ⟨[⟨Call.lhsAccept l, (v.acceptLhs l w).1⟩], by simp [ZipVisitor.acceptLhs],
        failFast_single _ _⟩
  · simp only [hm, if_false]
    exact ⟨[⟨Call.mismatch l r, (v.invokeMismatch l r w).1⟩],
      by simp [ZipVisitor.invokeMismatch], failFast_single _ _⟩

mutual
/-- The walk is fail-fast: its trace extends the trace it started from by a
fail-fast segment. -/
theorem walk_failFast {σ : Type} (H : ClassHierarchy) (v : ZipVisitor σ) :
    (l r : AstNode) → (w : World σ) →
    ∃ evs, (walk H v l r w).2.trace = w.trace ++ evs ∧ failFast (walk H v l r w).1 evs
  | .mk i k cs, r, w => by
    obtain ⟨e1, t1, f1⟩ := pairStep_failFast H v (AstNode.mk i k cs) r w
    rw [walk]
    by_cases hp : (pairStep H v (AstNode.mk i k cs) r w).1.ok = true
    · simp only [hp, if_true]
      rw [(Status.ok_iff _).1 hp] at f1
      by_cases hlen : cs.length = r.GetChildren.length
      · simp only [hlen, ne_eq, not_true_eq_false, if_false]
        obtain ⟨e2, t2, f2⟩ := walkLoop_failFast H v cs r.GetChildren
          (pairStep H v (AstNode.mk i k cs) r w).2
        exact ⟨e1 ++ e2, by rw [t2, t1, List.append_assoc], failFast_append _ _ _ f1 f2⟩
      · simp only [ne_eq, hlen, not_false_eq_true, if_true]
        refine ⟨e1 ++ [⟨Call.mismatch (AstNode.mk i k cs) r, _⟩], ?_,
          failFast_append _ _ _ f1 (failFast_single _ _)⟩
        simp [ZipVisitor.invokeMismatch, t1]
    · simp only [hp, if_false]
      exact ⟨e1, t1, f1⟩
theorem walkLoop_failFast {σ : Type} (H : ClassHierarchy) (v : ZipVisitor σ) :
    (ls rs : List AstNode) → (w : World σ) →
    ∃ evs, (walkLoop H v ls rs w).2.trace = w.trace ++ evs
      ∧ failFast (walkLoop H v ls rs w).1 evs
  | [], _, w => ⟨[], by simp [walkLoop], by simpa [walkLoop] using failFast_nil⟩
  | _ :: _, [], w => ⟨[], by simp [walkLoop], by simpa [walkLoop] using failFast_nil⟩
  | l :: ls, r :: rs, w => by
    obtain ⟨e1, t1, f1⟩ := walk_failFast H v l r w
    rw [walkLoop]
    by_cases hp : (walk H v l r w).1.ok = true
    · simp only [hp, if_true]
      rw [(Status.ok_iff _).1 hp] at f1
      obtain ⟨e2, t2, f2⟩ := walkLoop_failFast H v ls rs (walk H v l r w).2
      exact ⟨e1 ++ e2, by rw [t2, t1, List.append_assoc], failFast_append _ _ _ f1 f2⟩
    · simp only [hp, if_false]
      exact ⟨e1, t1, f1⟩
end

/-- The trace of `ZipAst` is fail-fast for the status it returns. -/
theorem ZipAst_failFast {σ : Type} (H : ClassHierarchy) (L R : AstNode)
    (lv rv : AstNodeVisitor σ) (cb : MismatchCallback σ) (s : σ) :
    ∃ st w, ZipAst H L R lv rv cb s = some (st, w) ∧ failFast st w.trace := by
  obtain ⟨evs, t, f⟩ := walk_failFast H (ZipVisitor.new lv rv cb) L R ⟨s, []⟩
  refine ⟨_, _, ZipAst_eq_walk H L R lv rv cb s, ?_⟩
  rw [t]; simpa using f

/-- Claim C5 (fail-fast on a visitor error).  `ZipAst` is defined on every input;
if in its trace a dispatch to a downstream visitor (left or right) returned an
error, then that dispatch is the last invocation of caller code of the whole
walk (no handler and no mismatch callback runs afterwards) and `ZipAst` returns
exactly that error. -/
theorem ZipAst_visitor_error_fail_fast {σ : Type} (H : ClassHierarchy) (L R : AstNode)
    (lv rv : AstNodeVisitor σ) (cb : MismatchCallback σ) (s : σ) :
    ∃ st w, ZipAst H L R lv rv cb s = some (st, w)
      ∧ ∀ pre ev post, w.trace = pre ++ ev :: post → ev.call.isAccept = true →
          ev.result ≠ Status.OkStatus → post = [] ∧ st = ev.result := by
  obtain ⟨st, w, h, f⟩ := ZipAst_failFast H L R lv rv cb s
  exact ⟨st, w, h, fun pre ev post hs _ he => failFast_error_last st _ pre post ev f hs he⟩

/-- Claim C6 (fail-fast on a callback error).  `ZipAst` is defined on every input;
if in its trace an invocation of the mismatch callback returned an error, that
invocation is the last invocation of caller code and `ZipAst` returns exactly
that error; conversely, when `ZipAst` returns an error, the trace is not empty
and its last invocation returned that error. -/
theorem ZipAst_callback_error_fail_fast {σ : Type} (H : ClassHierarchy) (L R : AstNode)
    (lv rv : AstNodeVisitor σ) (cb : MismatchCallback σ) (s : σ) :
    ∃ st w, ZipAst H L R lv rv cb s = some (st, w)
      ∧ (∀ pre ev post, w.trace = pre ++ ev :: post → ev.call.isMismatch = true →
          ev.result ≠ Status.OkStatus → post = [] ∧ st = ev.result)
      ∧ (st ≠ Status.OkStatus → ∃ pre ev, w.trace = pre ++ [ev] ∧ ev.result = st) := by
  obtain ⟨st, w, h, f⟩ := ZipAst_failFast H L R lv rv cb s
  exact ⟨st, w, h, fun pre ev post hs _ he => failFast_error_last st _ pre post ev f hs he,
    fun hst => failFast_error_source st _ f hst⟩

theorem pairStep_all_ok {σ : Type} (H : ClassHierarchy) (v : ZipVisitor σ)
    (hv : v.handlersSucceed) (hc : v.callbackSucceeds) (l r : AstNode) (w : World σ) :
    (pairStep H v l r w).1 = Status.OkStatus := by
  unfold pairStep
  by_cases hm : MatchType H l.kind r = true
  · simp [hm, ZipVisitor.acceptLhs, ZipVisitor.acceptRhs, hv.1, hv.2, Status.ok]
  · simpa [hm, ZipVisitor.invokeMismatch] using hc _ _ _

mutual
/-- With succeeding handlers and an accepting callback the walk succeeds. -/
theorem walk_all_ok {σ : Type} (H : ClassHierarchy) (v : ZipVisitor σ)
    (hv : v.handlersSucceed) (hc : v.callbackSucceeds) :
    (l r : AstNode) → (w : World σ) → (walk H v l r w).1 = Status.OkStatus
  | .mk i k cs, r, w => by
    rw [walk]
    simp only [pairStep_all_ok H v hv hc, Status.ok, if_true]
    split_ifs
    · exact hc _ _ _
    · exact walkLoop_all_ok H v hv hc cs r.GetChildren _
theorem walkLoop_all_ok {σ : Type} (H : ClassHierarchy) (v : ZipVisitor σ)
    (hv : v.handlersSucceed) (hc : v.callbackSucceeds) :
    (ls rs : List AstNode) → (w : World σ) → (walkLoop H v ls rs w).1 = Status.OkStatus
  | [], _, _ => by simp [walkLoop]
  | _ :: _, [], _ => by simp [walkLoop]
  | l :: ls, r :: rs, w => by
    rw [walkLoop]
    simp only [walk_all_ok H v hv hc l r w, Status.ok, if_true]
    exact walkLoop_all_ok H v hv hc ls rs _
end

/-- Claim C7 (collect-all walk).  For every pair of trees, if every downstream
handler returns OK and the mismatch callback returns OK on every input, then
`ZipAst` returns OK. -/
theorem ZipAst_collect_all {σ : Type} (H : ClassHierarchy) (L R : AstNode)
    (lv rv : AstNodeVisitor σ) (cb : MismatchCallback σ) (s : σ)
    (hl : ∀ n s, (lv.Handle n s).1 = Status.OkStatus)
    (hr : ∀ n s, (rv.Handle n s).1 = Status.OkStatus)
    (hcb : ∀ l r s, (cb l r s).1 = Status.OkStatus) :
    ∃ w, ZipAst H L R lv rv cb s = some (Status.OkStatus, w) := by
  refine ⟨(walk H (ZipVisitor.new lv rv cb) L R ⟨s, []⟩).2, ?_⟩
  rw [ZipAst_eq_walk, ← walk_all_ok H (ZipVisitor.new lv rv cb) ⟨hl, hr⟩ hcb L R ⟨s, []⟩]

/-- Claim C4 (arity mismatch).  When `ZipInternal` is entered with an empty slot
on a pair `(L, R)` whose classes match but whose child lists differ in length,
with succeeding downstream handlers, it dispatches `L` to the left visitor, `R`
to the right visitor, invokes the mismatch callback once with `(L, R)`, and
returns the callback's status; these three invocations are all it adds to the
trace, so no descendant is dispatched.  When the callback returns OK the
enclosing loop goes on with the remaining sibling pairs. -/
theorem ZipInternal_arity_mismatch {σ : Type} (H : ClassHierarchy) (v : ZipVisitor σ)
    (L R : AstNode) (w : World σ) (ls rs : List AstNode)
    (hslot : v.slotEmpty) (hv : v.handlersSucceed)
    (hm : MatchType H L.kind R = true)
    (hlen : L.GetChildren.length ≠ R.GetChildren.length) :
    let s1 := (v.lhs_visitor_.Handle L w.user).2
    let s2 := (v.rhs_visitor_.Handle R s1).2
    let r := v.accept_mismatch_callback_ L R s2
    let w1 : World σ := ⟨r.2, w.trace ++ [⟨Call.lhsAccept L, Status.OkStatus⟩,
      ⟨Call.rhsAccept R, Status.OkStatus⟩, ⟨Call.mismatch L R, r.1⟩]⟩
    ZipInternal H v L R w = some (r.1, v, w1)
      ∧ (r.1 = Status.OkStatus →
          ZipInternalLoop H v (L :: ls) (R :: rs) w = ZipInternalLoop H v ls rs w1) := by
  intro s1 s2 r w1
  have key : ZipInternal H v L R w = some (r.1, v, w1) := by
    obtain ⟨i, k, cs⟩ := L
    have e1 : (v.lhs_visitor_.Handle (AstNode.mk i k cs) w.user).1 = Status.OkStatus := hv.1 _ _
    have e2 : (v.rhs_visitor_.Handle R s1).1 = Status.OkStatus := hv.2 _ _
    have hp : pairStep H v (AstNode.mk i k cs) R w
        = (Status.OkStatus, ⟨s2, w.trace ++ [⟨Call.lhsAccept (AstNode.mk i k cs), Status.OkStatus⟩,
            ⟨Call.rhsAccept R, Status.OkStatus⟩]⟩) := by
      simp [pairStep, hm, ZipVisitor.acceptLhs, ZipVisitor.acceptRhs, e1, Status.ok, s2, s1,
        hv.2]
    have hlen1 : ¬ cs.length = R.GetChildren.length := hlen
    rw [ZipInternal, accept_first H v hslot]
    simp only [accept_second H v hslot, hp, Status.ok, if_true, ne_eq, hlen1,
      not_false_eq_true, ZipVisitor.invokeMismatch]
    simp [w1, r]
  refine ⟨key, fun hok => ?_⟩
  rw [ZipInternalLoop, key]
  cases hr : r.1 with
  | OkStatus => rfl
  | error c m => rw [hr] at hok; cases hok

mutual
theorem preorder_size_le : (t a : AstNode) → a ∈ preorder t → a.size ≤ t.size
  | .mk i k cs, a, h => by
    rw [preorder, List.mem_cons] at h
    rcases h with h | h
    · rw [h]
    · have := preorderList_size_le cs a h
      rw [AstNode.size]; omega
theorem preorderList_size_le :
    (ts : List AstNode) → (a : AstNode) → a ∈ preorderList ts → a.size ≤ AstNode.sizeList ts
  | [], a, h => by simp [preorderList] at h
  | t :: ts, a, h => by
    rw [preorderList, List.mem_append] at h
    rw [AstNode.sizeList]
    rcases h with h | h
    · have := preorder_size_le t a h; omega
    · have := preorderList_size_le ts a h; omega
end

theorem mem_preorder_self : (t : AstNode) → t ∈ preorder t
  | .mk i k cs => by simp [preorder]

theorem pairStep_mismatch_lhs {σ : Type} (H : ClassHierarchy) (v : ZipVisitor σ)
    (l r : AstNode) (w : World σ) :
    ∃ evs, (pairStep H v l r w).2.trace = w.trace ++ evs
      ∧ ∀ p ∈ mismatchCalls evs, p = (l, r) := by
  unfold pairStep
  by_cases hm : MatchType H l.kind r = true
  · simp only [hm, if_true]
    by_cases h1 : (v.acceptLhs l w).1.ok = true
    · simp only [h1, if_true]
      exact ⟨[⟨Call.lhsAccept l, (v.lhs_visitor_.Handle l w.user).1⟩,
        ⟨Call.rhsAccept r, (v.acceptRhs r (v.acceptLhs l w).2).1⟩],
        by simp [ZipVisitor.acceptRhs, ZipVisitor.acceptLhs], by simp [mismatchCalls]⟩
    · simp only [h1, if_false]
      exact ⟨[⟨Call.lhsAccept l, (v.acceptLhs l w).1⟩], by simp [ZipVisitor.acceptLhs],
        by simp [mismatchCalls]⟩
  · simp only [hm, if_false]
    exact ⟨[⟨Call.mismatch l r, (v.invokeMismatch l r w).1⟩],
      by simp [ZipVisitor.invokeMismatch], by simp [mismatchCalls]⟩

mutual
/-- The mismatch callback only receives left nodes of the left tree. -/
theorem walk_mismatch_lhs {σ : Type} (H : ClassHierarchy) (v : ZipVisitor σ) :
    (l r : AstNode) → (w : World σ) →
    ∃ evs, (walk H v l r w).2.trace = w.trace ++ evs
      ∧ ∀ p ∈ mismatchCalls evs, p.1 ∈ preorder l
  | .mk i k cs, r, w => by
    obtain ⟨e1, t1, f1⟩ := pairStep_mismatch_lhs H v (AstNode.mk i k cs) r w
    have f1' : ∀ p ∈ mismatchCalls e1, p.1 ∈ preorder (AstNode.mk i k cs) := by
      intro p hp; rw [f1 p hp]; exact mem_preorder_self _
    rw [walk]
    by_cases hp : (pairStep H v (AstNode.mk i k cs) r w).1.ok = true
    · simp only [hp, if_true]
      by_cases hlen : cs.length = r.GetChildren.length
      · simp only [hlen, ne_eq, not_true_eq_false, if_false]
        obtain ⟨e2, t2, f2⟩ := walkLoop_mismatch_lhs H v cs r.GetChildren
          (pairStep H v (AstNode.mk i k cs) r w).2
        refine ⟨e1 ++ e2, by rw [t2, t1, List.append_assoc], ?_⟩
        intro p hp
        rw [mismatchCalls_append, List.mem_append] at hp
        rcases hp with hp | hp
        · exact f1' p hp
        · rw [preorder]; exact List.mem_cons_of_mem _ (f2 p hp)
      · simp only [ne_eq, hlen, not_false_eq_true, if_true]
        refine ⟨e1 ++ [⟨Call.mismatch (AstNode.mk i k cs) r,
          (v.invokeMismatch (AstNode.mk i k cs) r (pairStep H v (AstNode.mk i k cs) r w).2).1⟩],
          by simp [ZipVisitor.invokeMismatch, t1], ?_⟩
        intro p hp
        rw [mismatchCalls_append, List.mem_append] at hp
        rcases hp with hp | hp
        · exact f1' p hp
        · simp only [mismatchCalls, List.filterMap_cons, List.filterMap_nil,
            List.mem_singleton] at hp
          rw [hp]; exact mem_preorder_self _
    · simp only [hp, if_false]
      exact ⟨e1, t1, f1'⟩
theorem walkLoop_mismatch_lhs {σ : Type} (H : ClassHierarchy) (v : ZipVisitor σ) :
    (ls rs : List AstNode) → (w : World σ) →
    ∃ evs, (walkLoop H v ls rs w).2.trace = w.trace ++ evs
      ∧ ∀ p ∈ mismatchCalls evs, p.1 ∈ preorderList ls
  | [], _, w => ⟨[], by simp [walkLoop], by simp [mismatchCalls]⟩
  | _ :: _, [], w => ⟨[], by simp [walkLoop], by simp [mismatchCalls]⟩
  | l :: ls, r :: rs, w => by
    obtain ⟨e1, t1, f1⟩ := walk_mismatch_lhs H v l r w
    rw [walkLoop]
    by_cases hp : (walk H v l r w).1.ok = true
    · simp only [hp, if_true]
      obtain ⟨e2, t2, f2⟩ := walkLoop_mismatch_lhs H v ls rs (walk H v l r w).2
      refine ⟨e1 ++ e2, by rw [t2, t1, List.append_assoc], ?_⟩
      intro p hp
      rw [mismatchCalls_append, List.mem_append] at hp
      rw [preorderList, List.mem_append]
      rcases hp with hp | hp
      · exact Or.inl (f1 p hp)
      · exact Or.inr (f2 p hp)
    · simp only [hp, if_false]
      refine ⟨e1, t1, fun p hp => ?_⟩
      rw [preorderList, List.mem_append]
      exact Or.inl (f1 p hp)
end

/-- Witness for claim C1 on `parentAB` with a rejecting callback. -/
theorem ZipAst_self_zip_witness :
    (∀ l r s, (rejectAll l r s).1.ok = false)
      ∧ ∃ w, ZipAst flatHierarchy parentAB parentAB okVisitor okVisitor rejectAll ()
            = some (Status.OkStatus, w)
          ∧ mismatchCalls w.trace = []
          ∧ lhsDispatched w.trace = preorder parentAB
          ∧ rhsDispatched w.trace = preorder parentAB :=
  ⟨fun _ _ _ => rfl,
    ZipAst_self_zip flatHierarchy parentAB okVisitor okVisitor rejectAll ()
      (fun _ _ => rfl) (fun _ _ => rfl) (fun _ _ _ => rfl)⟩

/-- Witness for claim C7: a leaf against a two-child node of another class. -/
theorem ZipAst_collect_all_witness :
    ∃ w, ZipAst flatHierarchy (AstNode.mk 9 3 []) parentAB okVisitor okVisitor acceptAll ()
      = some (Status.OkStatus, w) :=
  ZipAst_collect_all flatHierarchy (AstNode.mk 9 3 []) parentAB okVisitor okVisitor acceptAll ()
    (fun _ _ => rfl) (fun _ _ => rfl) (fun _ _ _ => rfl)

/-- Witness for claim C4: a one-child node against a two-child node of the same
class, with a rejecting callback. -/
theorem ZipInternal_arity_mismatch_witness :
    MatchType flatHierarchy (AstNode.mk 7 1 [leafA]).kind parentAB = true
      ∧ (AstNode.mk 7 1 [leafA]).GetChildren.length ≠ parentAB.GetChildren.length
      ∧ ZipInternal flatHierarchy (ZipVisitor.new okVisitor okVisitor rejectAll)
          (AstNode.mk 7 1 [leafA]) parentAB ⟨(), []⟩
        = some (Status.error StatusCode.kInvalidArgument "mismatch",
            ZipVisitor.new okVisitor okVisitor rejectAll,
            ⟨(), [⟨Call.lhsAccept (AstNode.mk 7 1 [leafA]), Status.OkStatus⟩,
              ⟨Call.rhsAccept parentAB, Status.OkStatus⟩,
              ⟨Call.mismatch (AstNode.mk 7 1 [leafA]) parentAB,
                Status.error StatusCode.kInvalidArgument "mismatch"⟩]⟩) :=
  ⟨by decide, by decide,
    (ZipInternal_arity_mismatch flatHierarchy (ZipVisitor.new okVisitor okVisitor rejectAll)
      (AstNode.mk 7 1 [leafA]) parentAB ⟨(), []⟩ [] [] ⟨rfl, rfl⟩
      ⟨fun _ _ => rfl, fun _ _ => rfl⟩ (by decide) (by decide)).1⟩

/-- Claim C2, evaluation at the failing input.  A leaf of class 3 against a
two-child node of class 1 with an accepting callback: `ZipAst` invokes the
mismatch callback twice on the two roots, once from `ZipVisitor::Handle` for the
class difference and once more from `ZipInternal` for the child-count
difference. -/
theorem ZipAst_root_kind_mismatch_reported_twice :
    (ZipAst flatHierarchy (AstNode.mk 9 3 []) parentAB okVisitor okVisitor acceptAll ()).map
        (fun r => (r.1, r.2.trace))
      = some (Status.OkStatus,
          [⟨Call.mismatch (AstNode.mk 9 3 []) parentAB, Status.OkStatus⟩,
           ⟨Call.mismatch (AstNode.mk 9 3 []) parentAB, Status.OkStatus⟩]) := by
  decide

/-- Claim C3, evaluation at the failing input.  Two one-child roots of different
classes with an accepting callback: after the tolerated class mismatch on the
roots `ZipInternal` still descends, and the children of both roots are
dispatched to the downstream visitors. -/
theorem ZipAst_tolerated_kind_mismatch_descends :
    (ZipAst flatHierarchy (AstNode.mk 9 3 [leafA]) (AstNode.mk 8 1 [leafB])
        okVisitor okVisitor acceptAll ()).map (fun r => (r.1, r.2.trace))
      = some (Status.OkStatus,
          [⟨Call.mismatch (AstNode.mk 9 3 [leafA]) (AstNode.mk 8 1 [leafB]), Status.OkStatus⟩,
           ⟨Call.lhsAccept leafA, Status.OkStatus⟩,
           ⟨Call.rhsAccept leafB, Status.OkStatus⟩]) := by
  decide

theorem foldl_push_back (xs results : List AstNode) :
    xs.foldl push_back results = results ++ xs := by
  induction xs generalizing results with
  | nil => simp
  | cons x xs ih => simp [List.foldl_cons, ih, push_back]

theorem Proc.GetChildren_eq (p : Proc) (want_types : Bool) :
    p.GetChildren want_types
      = [p.name_def_] ++ p.parametric_bindings_ ++ p.body_.members
          ++ [p.body_.config, p.body_.next, p.body_.init] := by
  simp [Proc.GetChildren, foldl_push_back, push_back, Proc.name_def]

/-- Counterexample to claim C9 as stated.  Two `Proc` nodes, one without members
and one with one member, have child lists of lengths 4 and 5. -/
theorem Proc_GetChildren_arity_differs :
    (procBare.GetChildren true).length = 4 ∧ (procOneMember.GetChildren true).length = 5
      ∧ (procBare.GetChildren true).length ≠ (procOneMember.GetChildren true).length := by
  decide

/-- Claim C9 (arity of the `Proc` class), as amended.  The child lists of two
`Proc` nodes `p` and `q` have the same length exactly when `p` and `q` have the
same total number of parametric bindings and members. -/
theorem Proc_GetChildren_same_arity_iff (p q : Proc) (a b : Bool) :
    (p.GetChildren a).length = (q.GetChildren b).length
      ↔ p.parametric_bindings_.length + p.body_.members.length
          = q.parametric_bindings_.length + q.body_.members.length := by
  rw [Proc.GetChildren_eq, Proc.GetChildren_eq]
  simp only [List.length_append, List.length_cons, List.length_nil]
  omega

/-- Claim C10 (child order of `Proc`).  For every `Proc` and both values of
`want_types`, `GetChildren` is the name definition, then the parametric
bindings, then the members, then `config`, `next`, `init`; its length is 4 plus
the numbers of bindings and members, its first element is the name definition,
its last three are `config`, `next`, `init`, and it does not depend on
`want_types`. -/
theorem Proc_GetChildren_order (p : Proc) (want_types : Bool) :
    p.GetChildren want_types
        = [p.name_def] ++ p.parametric_bindings_ ++ p.body_.members
            ++ [p.body_.config, p.body_.next, p.body_.init]
      ∧ (p.GetChildren want_types).length
          = 4 + p.parametric_bindings_.length + p.body_.members.length
      ∧ (p.GetChildren want_types).head? = some p.name_def
      ∧ (p.GetChildren want_types).drop ((p.GetChildren want_types).length - 3)
          = [p.body_.config, p.body_.next, p.body_.init]
      ∧ p.GetChildren true = p.GetChildren false := by
  refine ⟨Proc.GetChildren_eq p want_types, ?_, ?_, ?_, ?_⟩
  · rw [Proc.GetChildren_eq]
    simp only [List.length_append, List.length_cons, List.length_nil]
    omega
  · rw [Proc.GetChildren_eq]; simp [Proc.name_def]
  · rw [Proc.GetChildren_eq]
    have hlen : ([p.name_def_] ++ p.parametric_bindings_ ++ p.body_.members
        ++ [p.body_.config, p.body_.next, p.body_.init]).length - 3
        = ([p.name_def_] ++ p.parametric_bindings_ ++ p.body_.members).length := by
      simp only [List.length_append, List.length_cons, List.length_nil]
      omega
    rw [hlen, List.drop_left]
  · rw [Proc.GetChildren_eq, Proc.GetChildren_eq]

/-- Claim C11 (pairing visitor, first call).  When the slot is empty,
`Handle<T>(n)` returns OK, leaves the caller state and the trace untouched (no
downstream visitor and no mismatch callback is invoked) and leaves the slot
holding `n` and the test `MatchType<T>`; through `n->Accept(visitor)` the test
is the one for the class of `n`, which `n` and every node of the class of `n`
pass. -/
theorem ZipVisitor_Handle_first_call {σ : Type} (H : ClassHierarchy) (v : ZipVisitor σ)
    (T : Kind) (n : AstNode) (w : World σ) (hslot : v.lhs_ = none) :
    v.Handle H T n w
        = some (Status.OkStatus, { v with lhs_ := some n, match_fn_ := some T }, w)
      ∧ n.Accept H v w = some (Status.OkStatus, v.pending n, w)
      ∧ (∀ m : AstNode, m.kind = n.kind → MatchType H n.kind m = true) := by
  refine ⟨?_, ?_, ?_⟩
  · simp [ZipVisitor.Handle, hslot]
  · simp [AstNode.Accept, ZipVisitor.Handle, hslot, ZipVisitor.pending]
  · intro m hm
    simp [MatchType, hm]

/-- Witness for claim C11: a leaf fed to a fresh visitor. -/
theorem ZipVisitor_Handle_first_call_witness :
    (ZipVisitor.new okVisitor okVisitor rejectAll).Handle flatHierarchy 2 leafA ⟨(), []⟩
        = some (Status.OkStatus,
            { ZipVisitor.new okVisitor okVisitor rejectAll with
              lhs_ := some leafA, match_fn_ := some 2 }, ⟨(), []⟩)
      ∧ leafA.Accept flatHierarchy (ZipVisitor.new okVisitor okVisitor rejectAll) ⟨(), []⟩
        = some (Status.OkStatus,
            (ZipVisitor.new okVisitor okVisitor rejectAll).pending leafA, ⟨(), []⟩)
      ∧ (∀ m : AstNode, m.kind = leafA.kind → MatchType flatHierarchy leafA.kind m = true) :=
  ZipVisitor_Handle_first_call flatHierarchy (ZipVisitor.new okVisitor okVisitor rejectAll)
    2 leafA ⟨(), []⟩ rfl

/-- Claim C12 (pairing visitor, second call with matching classes).  With `L`
pending and `R` passing the stored test, `Handle(R)` dispatches `L` to the left
visitor first; if that returns an error it returns that error and `R` is not
dispatched; otherwise it dispatches `R` to the right visitor and returns the
status of that dispatch.  The mismatch callback is not invoked, and the result
is OK exactly when both dispatches return OK. -/
theorem ZipVisitor_Handle_second_call_match {σ : Type} (H : ClassHierarchy)
    (v : ZipVisitor σ) (T : Kind) (L R : AstNode) (w : World σ)
    (hL : v.lhs_ = some L) (hT : v.match_fn_ = some L.kind)
    (hm : MatchType H L.kind R = true) :
    ∃ st v1 w1, v.Handle H T R w = some (st, v1, w1)
      ∧ ((v.lhs_visitor_.Handle L w.user).1 ≠ Status.OkStatus →
          st = (v.lhs_visitor_.Handle L w.user).1
            ∧ w1.user = (v.lhs_visitor_.Handle L w.user).2
            ∧ w1.trace = w.trace ++ [⟨Call.lhsAccept L, (v.lhs_visitor_.Handle L w.user).1⟩])
      ∧ ((v.lhs_visitor_.Handle L w.user).1 = Status.OkStatus →
          st = (v.rhs_visitor_.Handle R (v.lhs_visitor_.Handle L w.user).2).1
            ∧ w1.user = (v.rhs_visitor_.Handle R (v.lhs_visitor_.Handle L w.user).2).2
            ∧ w1.trace = w.trace ++ [⟨Call.lhsAccept L, Status.OkStatus⟩,
                ⟨Call.rhsAccept R,
                  (v.rhs_visitor_.Handle R (v.lhs_visitor_.Handle L w.user).2).1⟩])
      ∧ (st = Status.OkStatus ↔
          (v.lhs_visitor_.Handle L w.user).1 = Status.OkStatus
            ∧ (v.rhs_visitor_.Handle R (v.lhs_visitor_.Handle L w.user).2).1
                = Status.OkStatus) := by
  simp only [ZipVisitor.Handle, hL, hT, hm, if_true, ZipVisitor.acceptLhs,
    ZipVisitor.acceptRhs]
  rcases h1 : (v.lhs_visitor_.Handle L w.user).1 with _ | ⟨c, m⟩
  · rcases h2 : (v.rhs_visitor_.Handle R (v.lhs_visitor_.Handle L w.user).2).1
      with _ | ⟨c, m⟩
    · simp only [Status.ok, h1, h2, if_true, Option.some.injEq, Prod.mk.injEq]
      exact ⟨_, _, _, ⟨rfl, rfl, rfl⟩, by simp, by simp, by simp⟩
    · simp only [Status.ok, h1, h2, if_true, Bool.false_eq_true, if_false, Option.some.injEq,
        Prod.mk.injEq]
      exact ⟨_, _, _, ⟨rfl, rfl, rfl⟩, by simp, by simp, by simp⟩
  · simp only [Status.ok, h1, Bool.false_eq_true, if_false, Option.some.injEq, Prod.mk.injEq]
    exact ⟨_, _, _, ⟨rfl, rfl, rfl⟩, by simp, by simp, by simp⟩

/-- Witness for claim C12: `leafB` arrives while `leafA`, of the same class, is
pending. -/
theorem ZipVisitor_Handle_second_call_match_witness :
    ∃ st v1 w1,
      ((ZipVisitor.new okVisitor failVisitor rejectAll).pending leafA).Handle
          flatHierarchy 2 leafB ⟨(), []⟩ = some (st, v1, w1)
      ∧ ((okVisitor.Handle leafA ()).1 ≠ Status.OkStatus →
          st = (okVisitor.Handle leafA ()).1
            ∧ w1.user = (okVisitor.Handle leafA ()).2
            ∧ w1.trace = [] ++ [⟨Call.lhsAccept leafA, (okVisitor.Handle leafA ()).1⟩])
      ∧ ((okVisitor.Handle leafA ()).1 = Status.OkStatus →
          st = (failVisitor.Handle leafB (okVisitor.Handle leafA ()).2).1
            ∧ w1.user = (failVisitor.Handle leafB (okVisitor.Handle leafA ()).2).2
            ∧ w1.trace = [] ++ [⟨Call.lhsAccept leafA, Status.OkStatus⟩,
                ⟨Call.rhsAccept leafB,
                  (failVisitor.Handle leafB (okVisitor.Handle leafA ()).2).1⟩])
      ∧ (st = Status.OkStatus ↔
          (okVisitor.Handle leafA ()).1 = Status.OkStatus
            ∧ (failVisitor.Handle leafB (okVisitor.Handle leafA ()).2).1
                = Status.OkStatus) :=
  ZipVisitor_Handle_second_call_match flatHierarchy
    ((ZipVisitor.new okVisitor failVisitor rejectAll).pending leafA) 2 leafA leafB ⟨(), []⟩
    rfl rfl (by decide)

/-- Claim C13 (pairing visitor, second call with differing classes).  With `L`
pending and `R` failing the stored test, `Handle(R)` invokes the mismatch
callback once with `(L, R)`, dispatches neither node, and returns the status of
the callback. -/
theorem ZipVisitor_Handle_second_call_mismatch {σ : Type} (H : ClassHierarchy)
    (v : ZipVisitor σ) (T : Kind) (L R : AstNode) (w : World σ)
    (hL : v.lhs_ = some L) (hT : v.match_fn_ = some L.kind)
    (hm : MatchType H L.kind R = false) :
    ∃ v1 w1, v.Handle H T R w
        = some ((v.accept_mismatch_callback_ L R w.user).1, v1, w1)
      ∧ w1.user = (v.accept_mismatch_callback_ L R w.user).2
      ∧ w1.trace = w.trace
          ++ [⟨Call.mismatch L R, (v.accept_mismatch_callback_ L R w.user).1⟩] := by
  simp only [ZipVisitor.Handle, hL, hT, hm, ZipVisitor.invokeMismatch]
  rcases h1 : (v.accept_mismatch_callback_ L R w.user).1 with _ | ⟨c, m⟩
  · exact ⟨_, _, rfl, rfl, rfl⟩
  · exact ⟨_, _, rfl, rfl, rfl⟩

/-- Witness for claim C13: a node of class 1 arrives while a leaf of class 2 is
pending. -/
theorem ZipVisitor_Handle_second_call_mismatch_witness :
    ∃ v1 w1, ((ZipVisitor.new okVisitor okVisitor rejectAll).pending leafA).Handle
          flatHierarchy 1 parentAB ⟨(), []⟩
        = some ((rejectAll leafA parentAB ()).1, v1, w1)
      ∧ w1.user = (rejectAll leafA parentAB ()).2
      ∧ w1.trace = []
          ++ [⟨Call.mismatch leafA parentAB, (rejectAll leafA parentAB ()).1⟩] :=
  ZipVisitor_Handle_second_call_mismatch flatHierarchy
    ((ZipVisitor.new okVisitor okVisitor rejectAll).pending leafA) 1 leafA parentAB ⟨(), []⟩
    rfl rfl (by decide)

/-- Counterexample to claim C14 as stated.  With `leafA` pending and a left
visitor whose handlers fail, `Handle(leafB)` returns the error of the left
dispatch and the slot still holds `leafA` and its test when the call returns. -/
theorem ZipVisitor_Handle_error_keeps_slot :
    (((ZipVisitor.new failVisitor okVisitor rejectAll).pending leafA).Handle
        flatHierarchy 2 leafB ⟨(), []⟩).map (fun r => (r.1, r.2.1.lhs_, r.2.1.match_fn_))
      = some (Status.error StatusCode.kInternal "visit", some leafA, some 2) := by
  decide

/-- Claim C14 (pairing slot lifecycle), as amended.  A second call of `Handle`
(slot holding a pending left node and its test) is defined; when it returns OK
the slot is empty again (pending node cleared and test reset); when it returns
an error of a downstream handler or of the mismatch callback the visitor is
unchanged, so the slot still holds the pending node and its test. -/
theorem ZipVisitor_Handle_slot_lifecycle {σ : Type} (H : ClassHierarchy)
    (v : ZipVisitor σ) (T K : Kind) (L R : AstNode) (w : World σ)
    (hL : v.lhs_ = some L) (hK : v.match_fn_ = some K) :
    ∃ st v1 w1, v.Handle H T R w = some (st, v1, w1)
      ∧ (st = Status.OkStatus → v1.lhs_ = none ∧ v1.match_fn_ = none)
      ∧ (st ≠ Status.OkStatus → v1 = v ∧ v1.lhs_ = some L ∧ v1.match_fn_ = some K) := by
  simp only [ZipVisitor.Handle, hL, hK]
  by_cases hm : MatchType H K R = true
  · simp only [hm, if_true]
    rcases h1 : (v.acceptLhs L w).1 with _ | ⟨c, m⟩
    · rcases h2 : (v.acceptRhs R (v.acceptLhs L w).2).1 with _ | ⟨c, m⟩
      · simp only [Status.ok, if_true]
        exact ⟨_, _, _, rfl, fun _ => ⟨rfl, rfl⟩, fun h => absurd rfl h⟩
      · simp only [Status.ok, if_true, Bool.false_eq_true, if_false]
        exact ⟨_, _, _, rfl, (fun h => by cases h), fun _ => ⟨rfl, hL, hK⟩⟩
    · simp only [Status.ok, Bool.false_eq_true, if_false]
      exact ⟨_, _, _, rfl, (fun h => by cases h), fun _ => ⟨rfl, hL, hK⟩⟩
  · simp only [hm, if_false]
    rcases h1 : (v.invokeMismatch L R w).1 with _ | ⟨c, m⟩
    · simp only [Status.ok, if_true]
      exact ⟨_, _, _, rfl, fun _ => ⟨rfl, rfl⟩, fun h => absurd rfl h⟩
    · simp only [Status.ok, Bool.false_eq_true, if_false]
      exact ⟨_, _, _, rfl, (fun h => by cases h), fun _ => ⟨rfl, hL, hK⟩⟩

/-- Witness for claim C14 as amended: `leafB` arrives while `leafA` is pending
and the left visitor fails. -/
theorem ZipVisitor_Handle_slot_lifecycle_witness :
    ∃ st v1 w1, ((ZipVisitor.new failVisitor okVisitor rejectAll).pending leafA).Handle
          flatHierarchy 2 leafB ⟨(), []⟩ = some (st, v1, w1)
      ∧ (st = Status.OkStatus → v1.lhs_ = none ∧ v1.match_fn_ = none)
      ∧ (st ≠ Status.OkStatus →
          v1 = (ZipVisitor.new failVisitor okVisitor rejectAll).pending leafA
            ∧ v1.lhs_ = some leafA ∧ v1.match_fn_ = some 2) :=
  ZipVisitor_Handle_slot_lifecycle flatHierarchy
    ((ZipVisitor.new failVisitor okVisitor rejectAll).pending leafA) 2 2 leafA leafB
    ⟨(), []⟩ rfl rfl

/-- Claim C15 (`ToProcStmt`).  For a node that is not at once a `Function` and a
`ProcMember`, `ToProcStmt(n)` returns the `Function` alternative holding `n`
exactly when `n` is a `Function`, the `ProcMember` alternative holding `n`
exactly when `n` is a `ProcMember`, and for every other node an
`InvalidArgument` error whose message is the fixed text followed by the node
type name of `n`. -/
theorem ToProcStmt_cases (H : ClassHierarchy) (C : NodeCatalog) (n : AstNode)
    (hdisj : ¬ (MatchType H C.Function n = true ∧ MatchType H C.ProcMember n = true)) :
    (ToProcStmt H C n = StatusOr.value (ProcStmt.Function n)
        ↔ MatchType H C.Function n = true)
      ∧ (ToProcStmt H C n = StatusOr.value (ProcStmt.ProcMember n)
        ↔ MatchType H C.ProcMember n = true)
      ∧ (MatchType H C.Function n = false → MatchType H C.ProcMember n = false →
          ToProcStmt H C n = StatusOr.status StatusCode.kInvalidArgument
            ("Node is not a valid ProcStmt; type: " ++ n.GetNodeTypeName C)) := by
  unfold ToProcStmt InvalidArgumentError
  by_cases hf : MatchType H C.Function n = true
  · have hp : MatchType H C.ProcMember n = false := by
      cases h : MatchType H C.ProcMember n
      · rfl
      · exact absurd ⟨hf, h⟩ hdisj
    simp [hf, hp]
  · by_cases hp : MatchType H C.ProcMember n = true
    · simp [hf, hp]
    · simp [hf, hp]

/-- Witness for claim C15: a node of the class `ProcMember` of `smallCatalog`. -/
theorem ToProcStmt_cases_witness :
    (ToProcStmt flatHierarchy smallCatalog (AstNode.mk 24 6 [])
          = StatusOr.value (ProcStmt.Function (AstNode.mk 24 6 []))
        ↔ MatchType flatHierarchy smallCatalog.Function (AstNode.mk 24 6 []) = true)
      ∧ (ToProcStmt flatHierarchy smallCatalog (AstNode.mk 24 6 [])
          = StatusOr.value (ProcStmt.ProcMember (AstNode.mk 24 6 []))
        ↔ MatchType flatHierarchy smallCatalog.ProcMember (AstNode.mk 24 6 []) = true)
      ∧ (MatchType flatHierarchy smallCatalog.Function (AstNode.mk 24 6 []) = false →
          MatchType flatHierarchy smallCatalog.ProcMember (AstNode.mk 24 6 []) = false →
          ToProcStmt flatHierarchy smallCatalog (AstNode.mk 24 6 [])
            = StatusOr.status StatusCode.kInvalidArgument
              ("Node is not a valid ProcStmt; type: "
                ++ (AstNode.mk 24 6 []).GetNodeTypeName smallCatalog)) :=
  ToProcStmt_cases flatHierarchy smallCatalog (AstNode.mk 24 6 []) (by decide)

/-- The walk only appends to the trace. -/
theorem walk_trace_extends {σ : Type} (H : ClassHierarchy) (v : ZipVisitor σ)
    (l r : AstNode) (w : World σ) : ∃ evs, (walk H v l r w).2.trace = w.trace ++ evs := by
  obtain ⟨evs, h, _⟩ := walk_failFast H v l r w
  exact ⟨evs, h⟩

/-- The loop over the children only appends to the trace. -/
theorem walkLoop_trace_extends {σ : Type} (H : ClassHierarchy) (v : ZipVisitor σ)
    (ls rs : List AstNode) (w : World σ) :
    ∃ evs, (walkLoop H v ls rs w).2.trace = w.trace ++ evs := by
  obtain ⟨evs, h, _⟩ := walkLoop_failFast H v ls rs w
  exact ⟨evs, h⟩

/-- Everything the walk does after the pairing step comes after it in the
trace. -/
theorem walk_after_pairStep {σ : Type} (H : ClassHierarchy) (v : ZipVisitor σ)
    (i : Nat) (k : Kind) (cs : List AstNode) (r : AstNode) (w : World σ) :
    ∃ evs, (walk H v (AstNode.mk i k cs) r w).2.trace
      = (pairStep H v (AstNode.mk i k cs) r w).2.trace ++ evs := by
  rw [walk]
  by_cases hp : (pairStep H v (AstNode.mk i k cs) r w).1.ok = true
  · simp only [hp, if_true]
    by_cases hlen : cs.length = r.GetChildren.length
    · simp only [hlen, ne_eq, not_true_eq_false, if_false]
      exact walkLoop_trace_extends H v cs r.GetChildren _
    · simp only [ne_eq, hlen, not_false_eq_true, if_true]
      exact ⟨[⟨Call.mismatch (AstNode.mk i k cs) r,
        (v.invokeMismatch (AstNode.mk i k cs) r (pairStep H v (AstNode.mk i k cs) r w).2).1⟩],
        by simp [ZipVisitor.invokeMismatch]⟩
  · simp only [hp, if_false]
    exact ⟨[], by simp⟩

mutual
/-- With succeeding handlers, a walk whose trace segment has no invocation of
the mismatch callback ran over two trees of the same shape and returned OK. -/
theorem walk_mismatch_free {σ : Type} (H : ClassHierarchy) (v : ZipVisitor σ)
    (hv : v.handlersSucceed) : (l r : AstNode) → (w : World σ) → (evs : List Event) →
    (walk H v l r w).2.trace = w.trace ++ evs → mismatchCalls evs = [] →
    sameShape H l r = true ∧ (walk H v l r w).1 = Status.OkStatus
  | .mk i k cs, r, w, evs, ht, hmm => by
    by_cases hm : MatchType H (AstNode.mk i k cs).kind r = true
    · obtain ⟨p1, p2⟩ := pairStep_match H v hv (AstNode.mk i k cs) r w hm
      by_cases hlen : cs.length = r.GetChildren.length
      · have hw : walk H v (AstNode.mk i k cs) r w
            = walkLoop H v cs r.GetChildren (pairStep H v (AstNode.mk i k cs) r w).2 := by
          rw [walk]; simp [p1, Status.ok, hlen]
        obtain ⟨e2, t2⟩ := walkLoop_trace_extends H v cs r.GetChildren
          (pairStep H v (AstNode.mk i k cs) r w).2
        have hevs : evs = [⟨Call.lhsAccept (AstNode.mk i k cs), Status.OkStatus⟩,
            ⟨Call.rhsAccept r, Status.OkStatus⟩] ++ e2 := by
          rw [hw, t2, p2, List.append_assoc] at ht
          exact (List.append_cancel_left ht).symm
        have hmm2 : mismatchCalls e2 = [] := by
          rw [hevs, mismatchCalls_append] at hmm
          simpa [mismatchCalls] using hmm
        obtain ⟨s1, s2⟩ := walkLoop_mismatch_free H v hv cs r.GetChildren
          (pairStep H v (AstNode.mk i k cs) r w).2 e2 hlen t2 hmm2
        refine ⟨?_, by rw [hw]; exact s2⟩
        rw [sameShape]
        simp only [AstNode.kind] at hm
        simp [hm, hlen, s1]
      · exfalso
        have hw : (walk H v (AstNode.mk i k cs) r w).2.trace
            = w.trace ++ [⟨Call.lhsAccept (AstNode.mk i k cs), Status.OkStatus⟩,
                ⟨Call.rhsAccept r, Status.OkStatus⟩,
                ⟨Call.mismatch (AstNode.mk i k cs) r,
                  (v.invokeMismatch (AstNode.mk i k cs) r
                    (pairStep H v (AstNode.mk i k cs) r w).2).1⟩] := by
          rw [walk]
          simp [p1, Status.ok, hlen, ZipVisitor.invokeMismatch, p2]
        rw [hw] at ht
        rw [← List.append_cancel_left ht] at hmm
        simp [mismatchCalls] at hmm
    · exfalso
      obtain ⟨e2, t2⟩ := walk_after_pairStep H v i k cs r w
      have hp : (pairStep H v (AstNode.mk i k cs) r w).2.trace
          = w.trace ++ [⟨Call.mismatch (AstNode.mk i k cs) r,
              (v.invokeMismatch (AstNode.mk i k cs) r w).1⟩] := by
        simp [pairStep, hm, ZipVisitor.invokeMismatch]
      rw [t2, hp, List.append_assoc] at ht
      rw [← List.append_cancel_left ht, mismatchCalls_append] at hmm
      simp [mismatchCalls] at hmm
/-- The same for the loop over two child lists of equal length. -/
theorem walkLoop_mismatch_free {σ : Type} (H : ClassHierarchy) (v : ZipVisitor σ)
    (hv : v.handlersSucceed) : (ls rs : List AstNode) → (w : World σ) →
    (evs : List Event) → ls.length = rs.length →
    (walkLoop H v ls rs w).2.trace = w.trace ++ evs → mismatchCalls evs = [] →
    sameShapeList H ls rs = true ∧ (walkLoop H v ls rs w).1 = Status.OkStatus
  | [], [], _, _, _, _, _ => by simp [sameShapeList, walkLoop]
  | [], _ :: _, _, _, h, _, _ => by simp at h
  | _ :: _, [], _, _, h, _, _ => by simp at h
  | l :: ls, r :: rs, w, evs, hlen, ht, hmm => by
    obtain ⟨e1, t1⟩ := walk_trace_extends H v l r w
    by_cases hp : (walk H v l r w).1.ok = true
    · have hw : walkLoop H v (l :: ls) (r :: rs) w
          = walkLoop H v ls rs (walk H v l r w).2 := by
        rw [walkLoop]; simp [hp]
      obtain ⟨e2, t2⟩ := walkLoop_trace_extends H v ls rs (walk H v l r w).2
      have hevs : evs = e1 ++ e2 := by
        rw [hw, t2, t1, List.append_assoc] at ht
        exact (List.append_cancel_left ht).symm
      rw [hevs, mismatchCalls_append, List.append_eq_nil] at hmm
      obtain ⟨a1, _⟩ := walk_mismatch_free H v hv l r w e1 t1 hmm.1
      obtain ⟨b1, b2⟩ := walkLoop_mismatch_free H v hv ls rs (walk H v l r w).2 e2
        (by simpa using hlen) t2 hmm.2
      exact ⟨by simp [sameShapeList, a1, b1], by rw [hw]; exact b2⟩
    · exfalso
      have hw : walkLoop H v (l :: ls) (r :: rs) w = walk H v l r w := by
        rw [walkLoop]; simp [hp]
      rw [hw, t1] at ht
      rw [← List.append_cancel_left ht] at hmm
      obtain ⟨_, a2⟩ := walk_mismatch_free H v hv l r w e1 t1 hmm
      rw [a2] at hp
      exact hp rfl
end

/-- Claim C16 (mismatch-free iff same shape).  With downstream handlers that
always succeed, `ZipAst(L, R, ...)` invokes the mismatch callback zero times
exactly when `L` and `R` have the same shape (at every corresponding position
the class test passes and the child counts are equal); in that case it returns
OK and the left and right visitors receive the pre-order enumerations of `L`
and of `R`. -/
theorem ZipAst_mismatch_free_iff_same_shape {σ : Type} (H : ClassHierarchy)
    (L R : AstNode) (lv rv : AstNodeVisitor σ) (cb : MismatchCallback σ) (s : σ)
    (hl : ∀ n s, (lv.Handle n s).1 = Status.OkStatus)
    (hr : ∀ n s, (rv.Handle n s).1 = Status.OkStatus) :
    ∃ st w, ZipAst H L R lv rv cb s = some (st, w)
      ∧ (mismatchCalls w.trace = [] ↔ sameShape H L R = true)
      ∧ (sameShape H L R = true →
          st = Status.OkStatus ∧ lhsDispatched w.trace = preorder L
            ∧ rhsDispatched w.trace = preorder R) := by
  have hv : (ZipVisitor.new lv rv cb).handlersSucceed := ⟨hl, hr⟩
  refine ⟨_, _, ZipAst_eq_walk H L R lv rv cb s, ⟨fun h => ?_, fun h => ?_⟩, fun h => ?_⟩
  · exact (walk_mismatch_free H _ hv L R ⟨s, []⟩ _ (by simp) h).1
  · obtain ⟨_, h2⟩ := walk_sameShape H _ hv L R ⟨s, []⟩ h
    rw [h2]; simpa using pairEvents_mismatch L R
  · obtain ⟨h1, h2⟩ := walk_sameShape H _ hv L R ⟨s, []⟩ h
    refine ⟨h1, ?_, ?_⟩
    · rw [h2]; simpa using pairEvents_lhs H L R h
    · rw [h2]; simpa using pairEvents_rhs H L R h

/-- Witness for claim C16: `parentAB` against `parentBA` with a rejecting
callback. -/
theorem ZipAst_mismatch_free_iff_same_shape_witness :
    ∃ st w, ZipAst flatHierarchy parentAB parentBA okVisitor okVisitor rejectAll ()
        = some (st, w)
      ∧ (mismatchCalls w.trace = [] ↔ sameShape flatHierarchy parentAB parentBA = true)
      ∧ (sameShape flatHierarchy parentAB parentBA = true →
          st = Status.OkStatus ∧ lhsDispatched w.trace = preorder parentAB
            ∧ rhsDispatched w.trace = preorder parentBA) :=
  ZipAst_mismatch_free_iff_same_shape flatHierarchy parentAB parentBA okVisitor okVisitor
    rejectAll () (fun _ _ => rfl) (fun _ _ => rfl)

theorem Aligned.mono {H : ClassHierarchy} {P Q : AstNode → AstNode → Prop}
    (hPQ : ∀ a b, P a b → Q a b) {evs : List Event} (h : Aligned H P evs) :
    Aligned H Q evs := by
  induction h with
  | nil => exact Aligned.nil
  | pair l r st rest hp hm _ ih => exact Aligned.pair l r st rest (hPQ _ _ hp) hm ih
  | lhsOnly l r st rest hp hm _ ih => exact Aligned.lhsOnly l r st rest (hPQ _ _ hp) hm ih
  | mismatch l r st rest hp _ ih => exact Aligned.mismatch l r st rest (hPQ _ _ hp) ih

theorem Aligned.append {H : ClassHierarchy} {P : AstNode → AstNode → Prop}
    {e1 e2 : List Event} (h1 : Aligned H P e1) (h2 : Aligned H P e2) :
    Aligned H P (e1 ++ e2) := by
  induction h1 with
  | nil => simpa using h2
  | pair l r st rest hp hm _ ih => exact Aligned.pair l r st _ hp hm ih
  | lhsOnly l r st rest hp hm _ ih => exact Aligned.lhsOnly l r st _ hp hm ih
  | mismatch l r st rest hp _ ih => exact Aligned.mismatch l r st _ hp ih

/-- In an aligned segment every left dispatch is on the left node of a related
pair. -/
theorem Aligned.lhs_related {H : ClassHierarchy} {P : AstNode → AstNode → Prop}
    {evs : List Event} (h : Aligned H P evs) :
    ∀ e ∈ evs, ∀ n, e.call = Call.lhsAccept n → ∃ r, P n r := by
  induction h with
  | nil => intro e he; simp at he
  | pair l r st rest hp hm _ ih =>
    intro e he n hn
    simp only [List.mem_cons] at he
    rcases he with he | he | he
    · subst he; simp only [Call.lhsAccept.injEq] at hn; subst hn; exact ⟨r, hp⟩
    · subst he; simp at hn
    · exact ih e he n hn
  | lhsOnly l r st rest hp hm _ ih =>
    intro e he n hn
    simp only [List.mem_cons] at he
    rcases he with he | he
    · subst he; simp only [Call.lhsAccept.injEq] at hn; subst hn; exact ⟨r, hp⟩
    · exact ih e he n hn
  | mismatch l r st rest hp _ ih =>
    intro e he n hn
    simp only [List.mem_cons] at he
    rcases he with he | he
    · subst he; simp at hn
    · exact ih e he n hn

/-- In an aligned segment every invocation of the mismatch callback is on a
related pair. -/
theorem Aligned.mismatch_related {H : ClassHierarchy} {P : AstNode → AstNode → Prop}
    {evs : List Event} (h : Aligned H P evs) :
    ∀ e ∈ evs, ∀ l r, e.call = Call.mismatch l r → P l r := by
  induction h with
  | nil => intro e he; simp at he
  | pair l r st rest hp hm _ ih =>
    intro e he a b hn
    simp only [List.mem_cons] at he
    rcases he with he | he | he
    · subst he; simp at hn
    · subst he; simp at hn
    · exact ih e he a b hn
  | lhsOnly l r st rest hp hm _ ih =>
    intro e he a b hn
    simp only [List.mem_cons] at he
    rcases he with he | he
    · subst he; simp at hn
    · exact ih e he a b hn
  | mismatch l r st rest hp _ ih =>
    intro e he a b hn
    simp only [List.mem_cons] at he
    rcases he with he | he
    · subst he
      simp only [Call.mismatch.injEq] at hn
      obtain ⟨h1, h2⟩ := hn
      subst h1; subst h2; exact hp
    · exact ih e he a b hn

/-- In an aligned segment every right dispatch comes right after the successful
left dispatch of its counterpart. -/
theorem Aligned.rhs_preceded {H : ClassHierarchy} {P : AstNode → AstNode → Prop}
    {evs : List Event} (h : Aligned H P evs) :
    ∀ pre e post r, evs = pre ++ e :: post → e.call = Call.rhsAccept r →
      ∃ pre1 l, pre = pre1 ++ [⟨Call.lhsAccept l, Status.OkStatus⟩] ∧ P l r
        ∧ MatchType H l.kind r = true := by
  induction h with
  | nil => intro pre e post r he; simp at he
  | pair l r st rest hp hm _ ih =>
    intro pre e post r1 he hr
    rcases pre with _ | ⟨x, pre⟩
    · simp only [List.nil_append, List.cons.injEq] at he
      rw [← he.1] at hr; simp at hr
    · rcases pre with _ | ⟨y, pre⟩
      · simp only [List.cons_append, List.nil_append, List.cons.injEq] at he
        obtain ⟨hx, he2, _⟩ := he
        rw [← he2] at hr
        simp only [Call.rhsAccept.injEq] at hr
        subst hr
        exact ⟨[], l, by simp [hx], hp, hm⟩
      · simp only [List.cons_append, List.cons.injEq] at he
        obtain ⟨hx, hy, he3⟩ := he
        obtain ⟨pre1, l1, h1, h2, h3⟩ := ih pre e post r1 he3 hr
        exact ⟨x :: y :: pre1, l1, by simp [h1], h2, h3⟩
  | lhsOnly l r st rest hp hm _ ih =>
    intro pre e post r1 he hr
    rcases pre with _ | ⟨x, pre⟩
    · simp only [List.nil_append, List.cons.injEq] at he
      rw [← he.1] at hr; simp at hr
    · simp only [List.cons_append, List.cons.injEq] at he
      obtain ⟨pre1, l1, h1, h2, h3⟩ := ih pre e post r1 he.2 hr
      exact ⟨x :: pre1, l1, by simp [h1], h2, h3⟩
  | mismatch l r st rest hp _ ih =>
    intro pre e post r1 he hr
    rcases pre with _ | ⟨x, pre⟩
    · simp only [List.nil_append, List.cons.injEq] at he
      rw [← he.1] at hr; simp at hr
    · simp only [List.cons_append, List.cons.injEq] at he
      obtain ⟨pre1, l1, h1, h2, h3⟩ := ih pre e post r1 he.2 hr
      exact ⟨x :: pre1, l1, by simp [h1], h2, h3⟩

theorem samePosition_self (l r : AstNode) : samePosition l r l r :=
  ⟨[], rfl, rfl⟩

theorem samePosition_of_children (i : Nat) (k : Kind) (cs : List AstNode) (r a b : AstNode)
    (h : samePositionList cs r.GetChildren a b) : samePosition (AstNode.mk i k cs) r a b := by
  obtain ⟨j, x, y, hx, hy, p, hp1, hp2⟩ := h
  refine ⟨j :: p, ?_, ?_⟩
  · simp [nodeAt, AstNode.GetChildren, hx, hp1]
  · simp [nodeAt, hy, hp2]

theorem samePositionList_head (l r : AstNode) (ls rs : List AstNode) (a b : AstNode)
    (h : samePosition l r a b) : samePositionList (l :: ls) (r :: rs) a b :=
  ⟨0, l, r, by simp, by simp, h⟩

theorem samePositionList_tail (l r : AstNode) (ls rs : List AstNode) (a b : AstNode)
    (h : samePositionList ls rs a b) : samePositionList (l :: ls) (r :: rs) a b := by
  obtain ⟨j, x, y, hx, hy, hp⟩ := h
  exact ⟨j + 1, x, y, by simpa using hx, by simpa using hy, hp⟩

theorem pairStep_aligned {σ : Type} (H : ClassHierarchy) (v : ZipVisitor σ)
    (l r : AstNode) (w : World σ) :
    ∃ evs, (pairStep H v l r w).2.trace = w.trace ++ evs
      ∧ Aligned H (samePosition l r) evs := by
  unfold pairStep
  by_cases hm : MatchType H l.kind r = true
  · simp only [hm, if_true]
    by_cases h1 : (v.acceptLhs l w).1.ok = true
    · simp only [h1, if_true]
      refine ⟨[⟨Call.lhsAccept l, Status.OkStatus⟩,
        ⟨Call.rhsAccept r, (v.acceptRhs r (v.acceptLhs l w).2).1⟩], ?_, ?_⟩
      · have h1' : (v.lhs_visitor_.Handle l w.user).1 = Status.OkStatus :=
          (Status.ok_iff _).1 h1
        simp [ZipVisitor.acceptRhs, ZipVisitor.acceptLhs, h1']
      · exact Aligned.pair l r _ [] (samePosition_self l r) hm Aligned.nil
    · simp only [h1, if_false]
      exact ⟨[⟨Call.lhsAccept l, (v.acceptLhs l w).1⟩], by simp [ZipVisitor.acceptLhs],
        Aligned.lhsOnly l r _ [] (samePosition_self l r) hm Aligned.nil⟩
  · simp only [hm, if_false]
    exact ⟨[⟨Call.mismatch l r, (v.invokeMismatch l r w).1⟩],
      by simp [ZipVisitor.invokeMismatch],
      Aligned.mismatch l r _ [] (samePosition_self l r) Aligned.nil⟩

mutual
/-- The trace segment of a walk is aligned on pairs at the same position of the
two trees. -/
theorem walk_aligned {σ : Type} (H : ClassHierarchy) (v : ZipVisitor σ) :
    (l r : AstNode) → (w : World σ) →
    ∃ evs, (walk H v l r w).2.trace = w.trace ++ evs ∧ Aligned H (samePosition l r) evs
  | .mk i k cs, r, w => by
    obtain ⟨e1, t1, f1⟩ := pairStep_aligned H v (AstNode.mk i k cs) r w
    rw [walk]
    by_cases hp : (pairStep H v (AstNode.mk i k cs) r w).1.ok = true
    · simp only [hp, if_true]
      by_cases hlen : cs.length = r.GetChildren.length
      · simp only [hlen, ne_eq, not_true_eq_false, if_false]
        obtain ⟨e2, t2, f2⟩ := walkLoop_aligned H v cs r.GetChildren
          (pairStep H v (AstNode.mk i k cs) r w).2
        exact ⟨e1 ++ e2, by rw [t2, t1, List.append_assoc],
          f1.append (f2.mono (fun a b h => samePosition_of_children i k cs r a b h))⟩
      · simp only [ne_eq, hlen, not_false_eq_true, if_true]
        refine ⟨e1 ++ [⟨Call.mismatch (AstNode.mk i k cs) r,
          (v.invokeMismatch (AstNode.mk i k cs) r
            (pairStep H v (AstNode.mk i k cs) r w).2).1⟩], ?_, ?_⟩
        · simp [ZipVisitor.invokeMismatch, t1]
        · exact f1.append (Aligned.mismatch _ _ _ [] (samePosition_self _ _) Aligned.nil)
    · simp only [hp, if_false]
      exact ⟨e1, t1, f1⟩
/-- The trace segment of the loop is aligned on pairs at the same position below
the two child lists. -/
theorem walkLoop_aligned {σ : Type} (H : ClassHierarchy) (v : ZipVisitor σ) :
    (ls rs : List AstNode) → (w : World σ) →
    ∃ evs, (walkLoop H v ls rs w).2.trace = w.trace ++ evs
      ∧ Aligned H (samePositionList ls rs) evs
  | [], _, w => ⟨[], by simp [walkLoop], Aligned.nil⟩
  | _ :: _, [], w => ⟨[], by simp [walkLoop], Aligned.nil⟩
  | l :: ls, r :: rs, w => by
    obtain ⟨e1, t1, f1⟩ := walk_aligned H v l r w
    have g1 := f1.mono (fun a b h => samePositionList_head l r ls rs a b h)
    rw [walkLoop]
    by_cases hp : (walk H v l r w).1.ok = true
    · simp only [hp, if_true]
      obtain ⟨e2, t2, f2⟩ := walkLoop_aligned H v ls rs (walk H v l r w).2
      exact ⟨e1 ++ e2, by rw [t2, t1, List.append_assoc],
        g1.append (f2.mono (fun a b h => samePositionList_tail l r ls rs a b h))⟩
    · simp only [hp, if_false]
      exact ⟨e1, t1, g1⟩
end

/-- Claim C17 (positional correspondence of dispatches).  `ZipAst` is defined on
every input, and in its trace: every node dispatched to the left visitor is a
node of `L` and every node dispatched to the right visitor a node of `R`; every
right dispatch comes right after the successful left dispatch of the node at the
same child-index path, and the right node passes the class test of that left
node; every invocation of the mismatch callback receives a left and a right
node at the same child-index path. -/
theorem ZipAst_positional_correspondence {σ : Type} (H : ClassHierarchy) (L R : AstNode)
    (lv rv : AstNodeVisitor σ) (cb : MismatchCallback σ) (s : σ) :
    ∃ st w, ZipAst H L R lv rv cb s = some (st, w)
      ∧ (∀ e ∈ w.trace, ∀ n, e.call = Call.lhsAccept n → ∃ path, nodeAt path L = some n)
      ∧ (∀ e ∈ w.trace, ∀ n, e.call = Call.rhsAccept n → ∃ path, nodeAt path R = some n)
      ∧ (∀ pre e post r, w.trace = pre ++ e :: post → e.call = Call.rhsAccept r →
          ∃ pre1 l path, pre = pre1 ++ [⟨Call.lhsAccept l, Status.OkStatus⟩]
            ∧ nodeAt path L = some l ∧ nodeAt path R = some r
            ∧ MatchType H l.kind r = true)
      ∧ (∀ e ∈ w.trace, ∀ l r, e.call = Call.mismatch l r →
          ∃ path, nodeAt path L = some l ∧ nodeAt path R = some r) := by
  obtain ⟨evs, t, f⟩ := walk_aligned H (ZipVisitor.new lv rv cb) L R ⟨s, []⟩
  simp only [List.nil_append] at t
  refine ⟨_, _, ZipAst_eq_walk H L R lv rv cb s, ?_, ?_, ?_, ?_⟩
  · intro e he n hn
    rw [t] at he
    obtain ⟨r, p, hp, _⟩ := f.lhs_related e he n hn
    exact ⟨p, hp⟩
  · intro e he n hn
    rw [t] at he
    obtain ⟨pre, post, hsplit⟩ := List.append_of_mem he
    obtain ⟨_, _, _, ⟨p, _, hp⟩, _⟩ := f.rhs_preceded pre e post n hsplit hn
    exact ⟨p, hp⟩
  · intro pre e post r hsplit hr
    rw [t] at hsplit
    obtain ⟨pre1, l, h1, ⟨p, hp1, hp2⟩, hm⟩ := f.rhs_preceded pre e post r hsplit hr
    exact ⟨pre1, l, p, h1, hp1, hp2, hm⟩
  · intro e he l r hn
    rw [t] at he
    exact f.mismatch_related e he l r hn

theorem ZipVisitor.pending_eq {σ : Type} (v : ZipVisitor σ) (l : AstNode) :
    v.pending l = { v with lhs_ := some l, match_fn_ := some l.kind } := rfl

/-- Every invocation of `ZipInternal` reached from a call with an empty slot
starts with the very same visitor state. -/
theorem ZipInternalReaches_visitor {σ : Type} (H : ClassHierarchy)
    (v : ZipVisitor σ) (l r : AstNode) (w : World σ)
    (v4 : ZipVisitor σ) (l4 r4 : AstNode) (w4 : World σ)
    (h : ZipInternalReaches H v l r w v4 l4 r4 w4) (hv : v.slotEmpty) : v4 = v := by
  induction h with
  | self v l r w => rfl
  | child v l r w v1 w1 v2 w2 v3 w3 i a b v4 l4 r4 w4 h1 h2 hlen hpre _ _ _ ih =>
    rw [accept_first H v hv] at h1
    simp only [Option.some.injEq, Prod.mk.injEq, true_and] at h1
    obtain ⟨hv1, hw1⟩ := h1
    subst hv1; subst hw1
    rw [accept_second H v hv] at h2
    have hv2 : v2 = v := by
      by_cases hp : (pairStep H v l r w).1.ok = true
      · simp only [hp, if_true, Option.some.injEq, Prod.mk.injEq, true_and] at h2
        exact h2.1.symm
      · have hp2 : (pairStep H v l r w).1.ok = false := by simpa using hp
        simp only [hp2, Bool.false_eq_true, if_false, Option.some.injEq, Prod.mk.injEq] at h2
        rw [h2.1] at hp
        exact absurd rfl hp
    subst hv2
    obtain ⟨v5, h5, h6⟩ := ZipInternalLoop_eq_walkLoop H v2 hv (l.GetChildren.take i)
      (r.GetChildren.take i) w2 (by simp [hlen])
    rw [h5] at hpre
    simp only [Option.some.injEq, Prod.mk.injEq] at hpre
    have hv3 : v3 = v2 := by
      rw [← hpre.2.1]; exact h6 hpre.1
    rw [ih (hv3 ▸ hv), hv3]

/-- Claim C18 (left-then-right calling contract).  For every invocation of
`ZipInternal` made during `ZipAst(L, R, ...)`: the slot is empty when it starts;
its left node is therefore stored as the pending node with OK and without any
invocation of caller code; its right node is then paired with that very left
node; and the invocation is defined and, when it returns OK, returns with the
slot empty. -/
theorem ZipInternal_calling_contract {σ : Type} (H : ClassHierarchy) (L R : AstNode)
    (lv rv : AstNodeVisitor σ) (cb : MismatchCallback σ) (s : σ)
    (v : ZipVisitor σ) (l r : AstNode) (w : World σ)
    (hreach : ZipInternalReaches H (ZipVisitor.new lv rv cb) L R ⟨s, []⟩ v l r w) :
    v.slotEmpty
      ∧ l.Accept H v w = some (Status.OkStatus, v.pending l, w)
      ∧ (v.pending l).lhs_ = some l
      ∧ (∃ v2, r.Accept H (v.pending l) w
          = some ((pairStep H v l r w).1, v2, (pairStep H v l r w).2))
      ∧ (∃ st v1 w1, ZipInternal H v l r w = some (st, v1, w1)
          ∧ (st = Status.OkStatus → v1.slotEmpty)) := by
  have hnew : (ZipVisitor.new lv rv cb).slotEmpty := ⟨rfl, rfl⟩
  have hv : v = ZipVisitor.new lv rv cb :=
    ZipInternalReaches_visitor H _ L R ⟨s, []⟩ v l r w hreach hnew
  have hslot : v.slotEmpty := hv ▸ hnew
  refine ⟨hslot, accept_first H v hslot l w, rfl, ?_, ?_⟩
  · rw [ZipVisitor.pending_eq, accept_second H v hslot]
    by_cases hp : (pairStep H v l r w).1.ok = true
    · simp only [hp, if_true]
      exact ⟨v, by rw [(Status.ok_iff _).1 hp]⟩
    · simp only [hp, if_false]
      exact ⟨_, rfl⟩
  · obtain ⟨v1, h1, h2⟩ := ZipInternal_eq_walk H v hslot l r w
    exact ⟨_, v1, _, h1, fun hok => (h2 hok) ▸ hslot⟩

/-- Witness for claim C18: the invocation on the second children of `parentAB`
and `parentBA`, reached from the call on the two roots. -/
theorem ZipInternal_calling_contract_witness :
    (ZipVisitor.new okVisitor okVisitor rejectAll).slotEmpty
      ∧ leafB.Accept flatHierarchy (ZipVisitor.new okVisitor okVisitor rejectAll)
          ⟨(), pairEvents parentAB parentBA |>.take 4⟩
        = some (Status.OkStatus, (ZipVisitor.new okVisitor okVisitor rejectAll).pending leafB,
            ⟨(), pairEvents parentAB parentBA |>.take 4⟩)
      ∧ ((ZipVisitor.new okVisitor okVisitor rejectAll).pending leafB).lhs_ = some leafB
      ∧ (∃ v2, leafA.Accept flatHierarchy
            ((ZipVisitor.new okVisitor okVisitor rejectAll).pending leafB)
            ⟨(), pairEvents parentAB parentBA |>.take 4⟩
          = some ((pairStep flatHierarchy (ZipVisitor.new okVisitor okVisitor rejectAll)
                leafB leafA ⟨(), pairEvents parentAB parentBA |>.take 4⟩).1, v2,
              (pairStep flatHierarchy (ZipVisitor.new okVisitor okVisitor rejectAll)
                leafB leafA ⟨(), pairEvents parentAB parentBA |>.take 4⟩).2))
      ∧ (∃ st v1 w1, ZipInternal flatHierarchy (ZipVisitor.new okVisitor okVisitor rejectAll)
            leafB leafA ⟨(), pairEvents parentAB parentBA |>.take 4⟩ = some (st, v1, w1)
          ∧ (st = Status.OkStatus → v1.slotEmpty)) :=
  ZipInternal_calling_contract flatHierarchy parentAB parentBA okVisitor okVisitor rejectAll ()
    (ZipVisitor.new okVisitor okVisitor rejectAll) leafB leafA
    ⟨(), pairEvents parentAB parentBA |>.take 4⟩
    (ZipInternalReaches.child _ parentAB parentBA ⟨(), []⟩ _ _ _ _ _ _ 1 leafB leafA _ _ _ _
      rfl rfl rfl rfl rfl rfl (ZipInternalReaches.self _ _ _ _))

mutual
/-- The pre-order enumeration lists every node of the tree once. -/
theorem preorder_length : (t : AstNode) → (preorder t).length = t.size
  | .mk i k cs => by
    rw [preorder, AstNode.size, List.length_cons, preorderList_length cs]; omega
theorem preorderList_length :
    (ts : List AstNode) → (preorderList ts).length = AstNode.sizeList ts
  | [] => rfl
  | t :: ts => by
    rw [preorderList, AstNode.sizeList, List.length_append, preorder_length t,
      preorderList_length ts]
end

mutual
/-- A call of `ZipInternal` makes at most as many invocations of `ZipInternal`
as the smaller of the two trees has nodes. -/
theorem ZipInternalCalls_le {σ : Type} (H : ClassHierarchy) :
    (v : ZipVisitor σ) → (l r : AstNode) → (w : World σ) →
    ZipInternalCalls H v l r w ≤ min l.size r.size
  | v, .mk i k cs, .mk j m ds, w => by
    rw [ZipInternalCalls]
    have hl : (AstNode.mk i k cs).size = 1 + AstNode.sizeList cs := by rw [AstNode.size]
    have hr : (AstNode.mk j m ds).size = 1 + AstNode.sizeList ds := by rw [AstNode.size]
    rw [hl, hr]
    split
    · split
      · split_ifs
        · omega
        · rename_i v2 w2 _ _
          have := ZipInternalLoopCalls_le H v2 cs ds w2
          simp only [AstNode.GetChildren]
          omega
      · omega
    · omega
theorem ZipInternalLoopCalls_le {σ : Type} (H : ClassHierarchy) :
    (v : ZipVisitor σ) → (ls rs : List AstNode) → (w : World σ) →
    ZipInternalLoopCalls H v ls rs w ≤ min (AstNode.sizeList ls) (AstNode.sizeList rs)
  | _, [], _, _ => by simp [ZipInternalLoopCalls]
  | _, _ :: _, [], _ => by simp [ZipInternalLoopCalls]
  | v, l :: ls, r :: rs, w => by
    rw [ZipInternalLoopCalls, AstNode.sizeList, AstNode.sizeList]
    have h1 := ZipInternalCalls_le H v l r w
    split
    · rename_i v1 w1 _
      have h2 := ZipInternalLoopCalls_le H v1 ls rs w1
      omega
    · omega
end

theorem pairStep_dispatch_sublist {σ : Type} (H : ClassHierarchy) (v : ZipVisitor σ)
    (l r : AstNode) (w : World σ) :
    ∃ evs, (pairStep H v l r w).2.trace = w.trace ++ evs
      ∧ (lhsDispatched evs).Sublist [l] ∧ (rhsDispatched evs).Sublist [r] := by
  unfold pairStep
  by_cases hm : MatchType H l.kind r = true
  · simp only [hm, if_true]
    by_cases h1 : (v.acceptLhs l w).1.ok = true
    · simp only [h1, if_true]
      exact ⟨[⟨Call.lhsAccept l, (v.lhs_visitor_.Handle l w.user).1⟩,
        ⟨Call.rhsAccept r, (v.acceptRhs r (v.acceptLhs l w).2).1⟩],
        by simp [ZipVisitor.acceptRhs, ZipVisitor.acceptLhs],
        by simp [lhsDispatched], by simp [rhsDispatched]⟩
    · simp only [h1, if_false]
      exact ⟨[⟨Call.lhsAccept l, (v.acceptLhs l w).1⟩], by simp [ZipVisitor.acceptLhs],
        by simp [lhsDispatched], by simp [rhsDispatched]⟩
  · simp only [hm, if_false]
    exact ⟨[⟨Call.mismatch l r, (v.invokeMismatch l r w).1⟩],
      by simp [ZipVisitor.invokeMismatch], by simp [lhsDispatched], by simp [rhsDispatched]⟩

mutual
/-- The nodes a walk dispatches to the left (right) visitor form a subsequence
of the pre-order enumeration of the left (right) tree. -/
theorem walk_dispatch_sublist {σ : Type} (H : ClassHierarchy) (v : ZipVisitor σ) :
    (l r : AstNode) → (w : World σ) →
    ∃ evs, (walk H v l r w).2.trace = w.trace ++ evs
      ∧ (lhsDispatched evs).Sublist (preorder l) ∧ (rhsDispatched evs).Sublist (preorder r)
  | .mk i k cs, .mk j m ds, w => by
    obtain ⟨e1, t1, a1, b1⟩ := pairStep_dispatch_sublist H v (AstNode.mk i k cs)
      (AstNode.mk j m ds) w
    rw [walk]
    by_cases hp : (pairStep H v (AstNode.mk i k cs) (AstNode.mk j m ds) w).1.ok = true
    · simp only [hp, if_true, AstNode.GetChildren]
      by_cases hlen : cs.length = ds.length
      · simp only [hlen, ne_eq, not_true_eq_false, if_false]
        obtain ⟨e2, t2, a2, b2⟩ := walkLoop_dispatch_sublist H v cs ds
          (pairStep H v (AstNode.mk i k cs) (AstNode.mk j m ds) w).2
        refine ⟨e1 ++ e2, by rw [t2, t1, List.append_assoc], ?_, ?_⟩
        · rw [lhsDispatched_append, preorder]
          exact List.Sublist.append a1 a2
        · rw [rhsDispatched_append, preorder]
          exact List.Sublist.append b1 b2
      · simp only [ne_eq, hlen, not_false_eq_true, if_true]
        refine ⟨e1 ++ [⟨Call.mismatch (AstNode.mk i k cs) (AstNode.mk j m ds),
          (v.invokeMismatch (AstNode.mk i k cs) (AstNode.mk j m ds)
            (pairStep H v (AstNode.mk i k cs) (AstNode.mk j m ds) w).2).1⟩], ?_, ?_, ?_⟩
        · simp [ZipVisitor.invokeMismatch, t1]
        · rw [lhsDispatched_append, preorder]
          simpa [lhsDispatched] using List.Sublist.append a1 (List.nil_sublist (preorderList cs))
        · rw [rhsDispatched_append, preorder]
          simpa [rhsDispatched] using List.Sublist.append b1 (List.nil_sublist (preorderList ds))
    · simp only [hp, if_false]
      refine ⟨e1, t1, ?_, ?_⟩
      · rw [preorder]
        simpa using List.Sublist.append a1 (List.nil_sublist (preorderList cs))
      · rw [preorder]
        simpa using List.Sublist.append b1 (List.nil_sublist (preorderList ds))
theorem walkLoop_dispatch_sublist {σ : Type} (H : ClassHierarchy) (v : ZipVisitor σ) :
    (ls rs : List AstNode) → (w : World σ) →
    ∃ evs, (walkLoop H v ls rs w).2.trace = w.trace ++ evs
      ∧ (lhsDispatched evs).Sublist (preorderList ls)
      ∧ (rhsDispatched evs).Sublist (preorderList rs)
  | [], _, w => ⟨[], by simp [walkLoop], by simp [lhsDispatched], by simp [rhsDispatched]⟩
  | _ :: _, [], w => ⟨[], by simp [walkLoop], by simp [lhsDispatched], by simp [rhsDispatched]⟩
  | l :: ls, r :: rs, w => by
    obtain ⟨e1, t1, a1, b1⟩ := walk_dispatch_sublist H v l r w
    rw [walkLoop]
    by_cases hp : (walk H v l r w).1.ok = true
    · simp only [hp, if_true]
      obtain ⟨e2, t2, a2, b2⟩ := walkLoop_dispatch_sublist H v ls rs (walk H v l r w).2
      refine ⟨e1 ++ e2, by rw [t2, t1, List.append_assoc], ?_, ?_⟩
      · rw [lhsDispatched_append, preorderList]
        exact List.Sublist.append a1 a2
      · rw [rhsDispatched_append, preorderList]
        exact List.Sublist.append b1 b2
    · simp only [hp, if_false]
      refine ⟨e1, t1, ?_, ?_⟩
      · rw [preorderList]
        simpa using List.Sublist.append a1 (List.nil_sublist (preorderList ls))
      · rw [preorderList]
        simpa using List.Sublist.append b1 (List.nil_sublist (preorderList rs))
end

/-- Claim C19 (termination and visit bound).  `ZipAst` returns on every input
(`ZipInternal` recurses on the children of its left argument).  The nodes
dispatched to the left visitor form a subsequence of the pre-order enumeration
of `L`, so each position of `L` is dispatched at most once, and likewise on the
right for `R`; and the number of node pairs fed to the pairing visitor, one per
invocation of `ZipInternal`, is at most the smaller of the two sizes. -/
theorem ZipAst_terminates_visit_bound {σ : Type} (H : ClassHierarchy) (L R : AstNode)
    (lv rv : AstNodeVisitor σ) (cb : MismatchCallback σ) (s : σ) :
    ∃ st w, ZipAst H L R lv rv cb s = some (st, w)
      ∧ (lhsDispatched w.trace).Sublist (preorder L)
      ∧ (rhsDispatched w.trace).Sublist (preorder R)
      ∧ (lhsDispatched w.trace).length ≤ L.size
      ∧ (rhsDispatched w.trace).length ≤ R.size
      ∧ ZipInternalCalls H (ZipVisitor.new lv rv cb) L R ⟨s, []⟩ ≤ min L.size R.size := by
  obtain ⟨evs, t, a, b⟩ := walk_dispatch_sublist H (ZipVisitor.new lv rv cb) L R ⟨s, []⟩
  simp only [List.nil_append] at t
  refine ⟨_, _, ZipAst_eq_walk H L R lv rv cb s, ?_, ?_, ?_, ?_, ZipInternalCalls_le H _ L R _⟩
  · rw [t]; exact a
  · rw [t]; exact b
  · rw [t, ← preorder_length]; exact a.length_le
  · rw [t, ← preorder_length]; exact b.length_le

